import Mathlib

/-!
# Verification of `pkg/client/service.go` (steam-gslt)

A shallow embedding of the Steam `IGameServersService` client: URL construction
(`buildURL`), the two call primitives (`get`, `post`) and envelope unwrapping
(`unmarshalData`), together with models of the Go standard-library functions
the client calls (`url.QueryEscape`, `url.Values.Add/Encode`, `json.Unmarshal`
into the `response` struct, `http.NewRequest`, `http.Client.Do`).

Modelling decisions:

* Go strings and byte slices are sequences of bytes, `List (Fin 256)`.
* A Go map is a reference.  `buildURL` therefore returns, next to the URL, the
  caller's mapping as it is after the call.
* The transport is a function from request to response or error.  `get` and
  `post` record the requests they hand to it in the field `sent`.
* `http.NewRequest` fails only when `url.Parse` rejects the URL; the verdict of
  `url.Parse` is a parameter (`parseErr`) of `get` and `post`.  The request
  carries the parsed URL (`urlParse`): the fragment is cut off at the first `#`
  and the query at the first `?`; the text in front of the query is kept as
  written.
* `json.Unmarshal` is modelled on bytes: a syntax check of the whole input
  (`checkValid`), which also enforces the scanner's bound of 10000 nesting
  levels, then the decoding of the top-level value into the struct.
* The JSON grammar used to state the theorems (`IsValue`, `IsJSON`, and
  `IsValueAt` for values of bounded nesting depth) is given on the text,
  independently of the scanner; the scanner is proved to accept exactly the
  texts of the grammar that respect the nesting bound.
-/

namespace Client

/-! ## Bytes and Go strings -/

/-- A byte. -/
abbrev Byte := Fin 256

/-- A Go `string` / `[]byte`: a finite sequence of bytes. -/
abbrev Bytes := List Byte

/-- UTF-8 encoding of one Unicode scalar value (`utf8.EncodeRune` restricted to
valid scalar values, which is all that a `Char` can hold). -/
def utf8Encode (r : Nat) : Bytes :=
  if r < 0x80 then [Fin.ofNat r]
  else if r < 0x800 then [Fin.ofNat (0xC0 + r / 64), Fin.ofNat (0x80 + r % 64)]
  else if r < 0x10000 then
    [Fin.ofNat (0xE0 + r / 4096), Fin.ofNat (0x80 + r / 64 % 64), Fin.ofNat (0x80 + r % 64)]
  else
    [Fin.ofNat (0xF0 + r / 262144), Fin.ofNat (0x80 + r / 4096 % 64),
     Fin.ofNat (0x80 + r / 64 % 64), Fin.ofNat (0x80 + r % 64)]

/-- The bytes of a Go string literal (Go source text is UTF-8). -/
def go (s : String) : Bytes := s.toList.flatMap (fun c => utf8Encode c.toNat)

/-! ## `net/url`: query escaping -/

/-- Go `url.shouldEscape(c, encodeQueryComponent)`: only ASCII letters, digits
and `-` `_` `.` `~` are left alone in a query component. -/
def shouldEscape (c : Byte) : Bool :=
  if (0x61 ≤ c.val ∧ c.val ≤ 0x7A) ∨ (0x41 ≤ c.val ∧ c.val ≤ 0x5A) ∨
      (0x30 ≤ c.val ∧ c.val ≤ 0x39) then false
  else if c.val = 0x2D ∨ c.val = 0x5F ∨ c.val = 0x2E ∨ c.val = 0x7E then false
  else true

/-- Go `upperhex[n]` for `upperhex = "0123456789ABCDEF"`. -/
def upperhex (n : Nat) : Byte :=
  if n < 10 then Fin.ofNat (0x30 + n) else Fin.ofNat (0x41 + (n - 10))

/-- Go `url.QueryEscape`: a space becomes `+`, every other byte for which
`shouldEscape` holds becomes `%XX` with upper-case hex digits. -/
def QueryEscape : Bytes → Bytes
  | [] => []
  | c :: s =>
    if shouldEscape c then
      if c.val = 0x20 then (0x2B : Byte) :: QueryEscape s
      else (0x25 : Byte) :: upperhex (c.val / 16) :: upperhex (c.val % 16) :: QueryEscape s
    else c :: QueryEscape s

/-! ## `net/url`: `Values` -/

/-- Go `url.Values` is `map[string][]string`.  A map value is modelled as an
association list whose keys are pairwise distinct (`Values.WF`); the order of
the list is the (unobservable) order in which the names were inserted. -/
abbrev Values := List (Bytes × List Bytes)

/-- The well-formedness invariant of a map: no name occurs twice. -/
def Values.WF (v : Values) : Prop := (v.map Prod.fst).Nodup

instance (v : Values) : Decidable (Values.WF v) := by
  unfold Values.WF; infer_instance

/-- Go map indexing `v[k]`: the value list stored under `k`, the nil slice when
the name is absent. -/
def Values.index (v : Values) (k : Bytes) : List Bytes :=
  match v with
  | [] => []
  | (k', vs) :: rest => if k' = k then vs else Values.index rest k

/-- Whether the map has an entry named `k`. -/
def Values.has (v : Values) (k : Bytes) : Bool :=
  match v with
  | [] => false
  | (k', _) :: rest => if k' = k then true else Values.has rest k

/-- Go `Values.Add`: `v[key] = append(v[key], value)`. -/
def Values.Add (v : Values) (key value : Bytes) : Values :=
  match v with
  | [] => [(key, [value])]
  | (k', vs) :: rest =>
    if k' = key then (k', vs ++ [value]) :: rest else (k', vs) :: Values.Add rest key value

/-- Byte-wise lexicographic `≤` on Go strings (the order of `sort.Strings`). -/
def strLE : Bytes → Bytes → Bool
  | [], _ => true
  | _ :: _, [] => false
  | a :: s, b :: t => if a.val < b.val then true else if b.val < a.val then false else strLE s t

/-- The inner loop of `Values.Encode` for one name: for every value of the
name, write `&` unless the buffer is empty, then `escapedName=escapedValue`. -/
def encodeValues (keyEscaped : Bytes) : List Bytes → Bytes → Bytes
  | [], buf => buf
  | x :: vs, buf =>
    let buf1 := if buf.length > 0 then buf ++ [(0x26 : Byte)] else buf
    encodeValues keyEscaped vs (buf1 ++ keyEscaped ++ [(0x3D : Byte)] ++ QueryEscape x)

/-- The outer loop of `Values.Encode` over the sorted names. -/
def encodeKeys (v : Values) : List Bytes → Bytes → Bytes
  | [], buf => buf
  | k :: keys, buf => encodeKeys v keys (encodeValues (QueryEscape k) (Values.index v k) buf)

/-- Go `Values.Encode` ("URL encoded" form, names sorted); a nil map encodes to
the empty string. -/
def Values.Encode (v : Option Values) : Bytes :=
  match v with
  | none => []
  | some m => encodeKeys m ((m.map Prod.fst).insertionSort (fun a b => strLE a b = true)) []

/-! ## `encoding/json`: the scanner -/

/-- Go JSON scanner `isSpace`: space, tab, carriage return, line feed. -/
def isSpace (c : Byte) : Bool :=
  decide (c.val = 0x20 ∨ c.val = 0x09 ∨ c.val = 0x0D ∨ c.val = 0x0A)

/-- Skip insignificant white space (`scanWhile(scanSkipSpace)`). -/
def skipSpace (s : Bytes) : Bytes := s.dropWhile isSpace

/-- An ASCII decimal digit. -/
def isDigit (c : Byte) : Bool := decide (0x30 ≤ c.val ∧ c.val ≤ 0x39)

/-- An ASCII hexadecimal digit, as required after a `\u` escape. -/
def isHex (c : Byte) : Bool :=
  decide ((0x30 ≤ c.val ∧ c.val ≤ 0x39) ∨ (0x61 ≤ c.val ∧ c.val ≤ 0x66) ∨
    (0x41 ≤ c.val ∧ c.val ≤ 0x46))

/-- The byte that may follow a backslash in a string, apart from `u`:
one of `"` `\` `/` `b` `f` `n` `r` `t` (scanner state `stateInStringEsc`). -/
def isEscape (c : Byte) : Bool :=
  decide (c.val = 0x22 ∨ c.val = 0x5C ∨ c.val = 0x2F ∨ c.val = 0x62 ∨ c.val = 0x66 ∨
    c.val = 0x6E ∨ c.val = 0x72 ∨ c.val = 0x74)

/-- Scan the rest of a string literal, the opening quote already consumed
(scanner states `stateInString`, `stateInStringEsc`, `stateInStringEscU...`);
returns what follows the closing quote.  Bytes below 0x20 are rejected, bytes
from 0x80 up are accepted unchecked. -/
def scanString : Bytes → Option Bytes
  | [] => none
  | c :: s =>
    if c.val = 0x22 then some s
    else if c.val = 0x5C then
      match s with
      | [] => none
      | e :: s1 =>
        if isEscape e then scanString s1
        else if e.val = 0x75 then
          match s1 with
          | h1 :: h2 :: h3 :: h4 :: s2 =>
            if isHex h1 && isHex h2 && isHex h3 && isHex h4 then scanString s2 else none
          | _ => none
        else none
    else if c.val < 0x20 then none
    else scanString s

/-- Scan a non-empty run of digits (states `stateDot`/`stateDot0`,
`stateESign`/`stateE0`). -/
def scanDigits1 (s : Bytes) : Option Bytes :=
  match s with
  | c :: t => if isDigit c then some (t.dropWhile isDigit) else none
  | [] => none

/-- Scan the optional fraction of a number: after a `.` at least one digit is
required. -/
def scanFrac (s : Bytes) : Option Bytes :=
  match s with
  | c :: t => if c.val = 0x2E then scanDigits1 t else some s
  | [] => some s

/-- Scan the optional exponent of a number: after `e`/`E` an optional sign and
at least one digit are required. -/
def scanExp (s : Bytes) : Option Bytes :=
  match s with
  | c :: t =>
    if c.val = 0x65 ∨ c.val = 0x45 then
      match t with
      | d :: u => if d.val = 0x2B ∨ d.val = 0x2D then scanDigits1 u else scanDigits1 t
      | [] => none
    else some s
  | [] => some s

/-- Scan the integer part of a number: `0`, or a non-zero digit followed by
digits (states `state0`, `state1`). -/
def scanInt (s : Bytes) : Option Bytes :=
  match s with
  | c :: t =>
    if c.val = 0x30 then some t
    else if 0x31 ≤ c.val ∧ c.val ≤ 0x39 then some (t.dropWhile isDigit)
    else none
  | [] => none

/-- Scan a number literal: optional `-`, integer part, optional fraction,
optional exponent. -/
def scanNumber (s : Bytes) : Option Bytes :=
  let s1 := match s with
    | c :: t => if c.val = 0x2D then t else s
    | [] => s
  (scanInt s1).bind (fun s2 => (scanFrac s2).bind scanExp)

/-- Scan the fixed word `w` (`true`, `false`, `null`). -/
def scanWord (w : Bytes) (s : Bytes) : Option Bytes :=
  if s.take w.length = w then some (s.drop w.length) else none

/-- Scan the elements of a non-empty array, starting at the first byte of an
element: `value ws (, ws value ws)* ]`.  The parameter `value` scans one
value. -/
def scanElems (value : Bytes → Option Bytes) : Nat → Bytes → Option Bytes
  | 0, _ => none
  | k + 1, s =>
    match value s with
    | none => none
    | some r =>
      match skipSpace r with
      | c :: r1 =>
        if c.val = 0x2C then scanElems value k (skipSpace r1)
        else if c.val = 0x5D then some r1
        else none
      | [] => none

/-- Scan the members of a non-empty object, starting at the opening quote of
a name: `string ws : ws value ws (, ws string ws : ws value ws)* }`. -/
def scanMembers (value : Bytes → Option Bytes) : Nat → Bytes → Option Bytes
  | 0, _ => none
  | k + 1, s =>
    match s with
    | q :: s1 =>
      if q.val = 0x22 then
        match scanString s1 with
        | none => none
        | some s2 =>
          match skipSpace s2 with
          | c :: s3 =>
            if c.val = 0x3A then
              match value (skipSpace s3) with
              | none => none
              | some r =>
                match skipSpace r with
                | d :: r1 =>
                  if d.val = 0x2C then scanMembers value k (skipSpace r1)
                  else if d.val = 0x7D then some r1
                  else none
                | [] => none
            else none
          | [] => none
      else none
    | [] => none

/-- Go `maxNestingDepth`: the scanner gives up ("exceeded max depth") when an
opening `{` or `[` would make the nesting deeper than this. -/
def maxNestingDepth : Nat := 10000

/-- Scan one JSON value starting at its first byte; returns what follows it.
The first argument bounds the number of nested scans and is set from the
input length by `checkValid`.  The second argument is the number of nesting
levels still allowed: an opening `{` or `[` uses one (Go `pushParseState`) and
is an error when none is left. -/
def scanValue : Nat → Nat → Bytes → Option Bytes
  | 0, _, _ => none
  | n + 1, depth, s =>
    match s with
    | [] => none
    | c :: t =>
      if c.val = 0x7B then
        match depth with
        | 0 => none
        | d1 + 1 =>
          match skipSpace t with
          | d :: u => if d.val = 0x7D then some u else scanMembers (scanValue n d1) n (d :: u)
          | [] => none
      else if c.val = 0x5B then
        match depth with
        | 0 => none
        | d1 + 1 =>
          match skipSpace t with
          | d :: u => if d.val = 0x5D then some u else scanElems (scanValue n d1) n (d :: u)
          | [] => none
      else if c.val = 0x22 then scanString t
      else if c.val = 0x74 then scanWord (go "true") s
      else if c.val = 0x66 then scanWord (go "false") s
      else if c.val = 0x6E then scanWord (go "null") s
      else scanNumber s

/-- Go `json.checkValid`: the input is white space, one JSON value nested at
most `maxNestingDepth` levels deep, white space. -/
def checkValid (data : Bytes) : Bool :=
  match scanValue (data.length + 1) maxNestingDepth (skipSpace data) with
  | some rest => decide (skipSpace rest = [])
  | none => false

/-! ## `encoding/json`: decoding into the `response` struct -/

/-- Go `utf8.EncodeRune`: surrogates and values above U+10FFFF are written as
U+FFFD. -/
def encodeRune (r : Nat) : Bytes :=
  if 0x10FFFF < r ∨ (0xD800 ≤ r ∧ r ≤ 0xDFFF) then utf8Encode 0xFFFD else utf8Encode r

/-- A UTF-8 continuation byte in the range `lo..hi`. -/
def inRange (lo hi : Nat) (c : Byte) : Bool := decide (lo ≤ c.val ∧ c.val ≤ hi)

/-- Go `utf8.DecodeRune`: the first rune of `s` and its width in bytes; an
invalid or truncated encoding gives `(U+FFFD, 1)`, the empty input
`(U+FFFD, 0)`. -/
def decodeRune (s : Bytes) : Nat × Nat :=
  match s with
  | [] => (0xFFFD, 0)
  | b0 :: t =>
    if b0.val < 0x80 then (b0.val, 1)
    else if 0xC2 ≤ b0.val ∧ b0.val ≤ 0xDF then
      match t with
      | b1 :: _ =>
        if inRange 0x80 0xBF b1 then ((b0.val - 0xC0) * 64 + (b1.val - 0x80), 2) else (0xFFFD, 1)
      | _ => (0xFFFD, 1)
    else if 0xE0 ≤ b0.val ∧ b0.val ≤ 0xEF then
      match t with
      | b1 :: b2 :: _ =>
        let lo := if b0.val = 0xE0 then 0xA0 else 0x80
        let hi := if b0.val = 0xED then 0x9F else 0xBF
        if inRange lo hi b1 && inRange 0x80 0xBF b2 then
          ((b0.val - 0xE0) * 4096 + (b1.val - 0x80) * 64 + (b2.val - 0x80), 3)
        else (0xFFFD, 1)
      | _ => (0xFFFD, 1)
    else if 0xF0 ≤ b0.val ∧ b0.val ≤ 0xF4 then
      match t with
      | b1 :: b2 :: b3 :: _ =>
        let lo := if b0.val = 0xF0 then 0x90 else 0x80
        let hi := if b0.val = 0xF4 then 0x8F else 0xBF
        if inRange lo hi b1 && inRange 0x80 0xBF b2 && inRange 0x80 0xBF b3 then
          ((b0.val - 0xF0) * 262144 + (b1.val - 0x80) * 4096 + (b2.val - 0x80) * 64 +
            (b3.val - 0x80), 4)
        else (0xFFFD, 1)
      | _ => (0xFFFD, 1)
    else (0xFFFD, 1)

/-- The value of one hexadecimal digit. -/
def hexVal (c : Byte) : Nat :=
  if 0x30 ≤ c.val ∧ c.val ≤ 0x39 then c.val - 0x30
  else if 0x61 ≤ c.val ∧ c.val ≤ 0x66 then c.val - 0x61 + 10
  else if 0x41 ≤ c.val ∧ c.val ≤ 0x46 then c.val - 0x41 + 10
  else 0

/-- Go `getu4`: the 16-bit value of a `\uXXXX` escape at the head of `s`, or
`none` (Go: `-1`) when `s` does not start with one. -/
def getu4 (s : Bytes) : Option Nat :=
  match s with
  | b :: u :: h1 :: h2 :: h3 :: h4 :: _ =>
    if b.val = 0x5C ∧ u.val = 0x75 ∧ isHex h1 ∧ isHex h2 ∧ isHex h3 ∧ isHex h4 then
      some (((hexVal h1 * 16 + hexVal h2) * 16 + hexVal h3) * 16 + hexVal h4)
    else none
  | _ => none

/-- The character denoted by a one-letter escape. -/
def escapeChar (e : Byte) : Byte :=
  if e.val = 0x62 then 0x08 else if e.val = 0x66 then 0x0C else if e.val = 0x6E then 0x0A
  else if e.val = 0x72 then 0x0D else if e.val = 0x74 then 0x09 else e

/-- Go `unquoteBytes` applied to the inside of a string literal that the
scanner has accepted: escapes are replaced by the characters they denote
(`\uXXXX` by the UTF-8 encoding of the code point, a surrogate pair by the
code point it encodes, an unpaired surrogate by U+FFFD) and invalid UTF-8 is
coerced to U+FFFD. -/
def unquote : Nat → Bytes → Bytes
  | 0, _ => []
  | n + 1, s =>
    match s with
    | [] => []
    | c :: t =>
      if c.val = 0x5C then
        match t with
        | [] => []
        | e :: t1 =>
          if e.val = 0x75 then
            match getu4 s with
            | none => []
            | some rr =>
              if 0xD800 ≤ rr ∧ rr < 0xE000 then
                match getu4 (s.drop 6) with
                | some rr1 =>
                  if rr < 0xDC00 ∧ 0xDC00 ≤ rr1 ∧ rr1 < 0xE000 then
                    encodeRune ((rr - 0xD800) * 1024 + (rr1 - 0xDC00) + 0x10000) ++
                      unquote n (s.drop 12)
                  else encodeRune 0xFFFD ++ unquote n (s.drop 6)
                | none => encodeRune 0xFFFD ++ unquote n (s.drop 6)
              else encodeRune rr ++ unquote n (s.drop 6)
          else escapeChar e :: unquote n t1
      else if c.val < 0x80 then c :: unquote n t
      else
        let d := decodeRune s
        encodeRune d.1 ++ unquote n (s.drop d.2)

/-- The part of `encoding/json`'s `foldRune` that can produce an ASCII letter:
the long s U+017F folds to `S` and the Kelvin sign U+212A to `K`.  Every other
non-ASCII rune folds to a non-ASCII rune, which no ASCII field name contains,
and is left as it is. -/
def foldRune (r : Nat) : Nat :=
  if r = 0x17F then 0x53 else if r = 0x212A then 0x4B else r

/-- Go `encoding/json` `foldName`: ASCII lower-case letters are upper-cased,
every non-ASCII rune is replaced by its fold. -/
def foldName : Nat → Bytes → Bytes
  | 0, _ => []
  | n + 1, s =>
    match s with
    | [] => []
    | c :: t =>
      if c.val < 0x80 then
        (if 0x61 ≤ c.val ∧ c.val ≤ 0x7A then Fin.ofNat (c.val - 0x20) else c) :: foldName n t
      else
        let d := decodeRune s
        encodeRune (foldRune d.1) ++ foldName n (s.drop d.2)

/-- Whether the object name with raw (still escaped) text `rawKey` selects the
struct field tagged `json:"response"`: Go unquotes the name and accepts an
exact match or, failing that, a match of the folded names. -/
def fieldMatches (rawKey : Bytes) : Bool :=
  let key := unquote rawKey.length rawKey
  decide (key = go "response") ||
    decide (foldName key.length key = foldName 8 (go "response"))

/-- Go `type response struct { Data json.RawMessage }`; `none` is the nil
slice. -/
structure response where
  Data : Option Bytes
deriving DecidableEq, Repr

/-- Go error values.  `jsonSyntaxError` stands for a `*json.SyntaxError`,
`jsonUnmarshalTypeError v` for a `*json.UnmarshalTypeError` whose `Value`
field is `v`; `other` covers every error produced outside `encoding/json`
(transport, body reading, URL parsing). -/
inductive GoError where
  | jsonSyntaxError
  | jsonUnmarshalTypeError (value : Bytes)
  | other (code : Nat)
deriving DecidableEq, Repr

/-- The first `s.length - rest.length` bytes of `s`: the Go slice
`data[start:end]` when `rest` is what follows position `end`. -/
def consumed (s rest : Bytes) : Bytes := s.take (s.length - rest.length)

/-- Go `decodeState.object` for a value of type `response`, entered at the
opening quote of a member name: each member whose name selects the `Data`
field stores the raw text of its value there (`RawMessage.UnmarshalJSON`
copies the bytes), all other members are skipped.  The member values lie one
level inside the top-level object, so one nesting level is used up.  The
input has passed `checkValid`; the fall-through branches are not reachable
then. -/
def decodeMembers : Nat → Bytes → response → response
  | 0, _, v => v
  | k + 1, s, v =>
    match s with
    | [] => v
    | _ :: s1 =>
      match scanString s1 with
      | none => v
      | some s2 =>
        let rawKey := (consumed s1 s2).dropLast
        match skipSpace s2 with
        | [] => v
        | _ :: s3 =>
          let s4 := skipSpace s3
          match scanValue (s4.length + 1) (maxNestingDepth - 1) s4 with
          | none => v
          | some s5 =>
            let v1 : response := if fieldMatches rawKey then ⟨some (consumed s4 s5)⟩ else v
            match skipSpace s5 with
            | [] => v1
            | d :: s6 => if d.val = 0x2C then decodeMembers k (skipSpace s6) v1 else v1

/-- Go `json.Unmarshal(data, v)` for `v` of type `*response`: a syntax check
of the whole input first, then the decoding of the top-level value.  An
object fills the struct; `null` leaves it as it is; an array, string, number
or boolean cannot be stored in a struct and gives an `UnmarshalTypeError`. -/
def jsonUnmarshal (data : Bytes) (v : response) : response × Option GoError :=
  if checkValid data then
    match skipSpace data with
    | [] => (v, none)
    | c :: s =>
      if c.val = 0x7B then
        match skipSpace s with
        | [] => (v, none)
        | d :: u => if d.val = 0x7D then (v, none) else (decodeMembers data.length (d :: u) v, none)
      else if c.val = 0x5B then (v, some (GoError.jsonUnmarshalTypeError (go "array")))
      else if c.val = 0x22 then (v, some (GoError.jsonUnmarshalTypeError (go "string")))
      else if c.val = 0x6E then (v, none)
      else if c.val = 0x74 ∨ c.val = 0x66 then
        (v, some (GoError.jsonUnmarshalTypeError (go "bool")))
      else (v, some (GoError.jsonUnmarshalTypeError (go "number")))
  else (v, some GoError.jsonSyntaxError)

/-! ## `net/http` -/

/-- Go `strings.Cut(s, sep)` for a one-byte separator: the text before the
first `sep` and the text after it; all of `s` and nothing when `sep` does not
occur. -/
def stringsCut (sep : Byte) : Bytes → Bytes × Bytes
  | [] => ([], [])
  | c :: s => if c = sep then ([], s) else (c :: (stringsCut sep s).1, (stringsCut sep s).2)

/-- A Go `*url.URL` as far as `url.Parse` is modelled.  `RawQuery` is the
field of that name: the text between the first `?` and the fragment.
`Fragment` is the text after the first `#`, as written.  `Head` is the text
that `url.Parse` finds in front of the query; Go goes on to split it into
scheme, authority and path, unescapes the path, and escapes it again when the
request is written out (a space as `%20`): that part is not modelled, `Head`
is the text as it was given. -/
structure URL where
  Head : Bytes
  RawQuery : Bytes
  Fragment : Bytes
deriving DecidableEq, Repr

/-- Go `url.Parse` on a URL it accepts: the fragment is cut off at the first
`#` (`strings.Cut(rawURL, "#")`), then the query at the first `?` of what is
left. -/
def urlParse (rawURL : Bytes) : URL :=
  let u := (stringsCut 0x23 rawURL).1
  ⟨(stringsCut 0x3F u).1, (stringsCut 0x3F u).2, (stringsCut 0x23 rawURL).2⟩

/-- The fields of a Go `*http.Request` that the client sets. -/
structure Request where
  Method : Bytes
  URL : URL
  Body : Option Bytes
  Header : List (Bytes × Bytes)
deriving DecidableEq, Repr

/-- A Go `*http.Response` as the client sees it: the status code and the
outcome of `ioutil.ReadAll(res.Body)`. -/
structure Response where
  StatusCode : Nat
  Body : Except GoError Bytes

/-- Go `http.NewRequest(method, url, body)` for the method constants
`http.MethodGet` and `http.MethodPost`.  It fails exactly when `url.Parse`
rejects the URL; the verdict of `url.Parse` is the parameter `parseErr`
(`none` when the URL is accepted).  The request carries the parsed URL. -/
def NewRequest (parseErr : Bytes → Option GoError) (method url : Bytes)
    (body : Option Bytes) : Except GoError Request :=
  match parseErr url with
  | some err => Except.error err
  | none => Except.ok ⟨method, urlParse url, body, []⟩

/-- Go `Header.Add`. -/
def Request.addHeader (req : Request) (name value : Bytes) : Request :=
  ⟨req.Method, req.URL, req.Body, req.Header ++ [(name, value)]⟩

/-! ## The service client -/

/-- Go `gameServerService`: the transport (`http.Client.Do`, a function from
request to response or error), the base URL and the API key. -/
structure gameServerService where
  http : Request → Except GoError Response
  url : Bytes
  key : Bytes

/-- Go `newService`: a client for the fixed Steam endpoint.  The transport of
a fresh `http.Client` is the parameter `transport`. -/
def newService (transport : Request → Except GoError Response) (key : Bytes) :
    gameServerService :=
  ⟨transport, go "https://api.steampowered.com/IGameServersService", key⟩

/-- Go `buildURL`.  A Go map is a reference, so `data.Add` is visible to the
caller: the second component is the caller's mapping after the call (`none`
stays `none`, because only the local variable is rebound to a fresh map). -/
def gameServerService.buildURL (g : gameServerService) (method : Bytes)
    (data : Option Values) : Bytes × Option Values :=
  let data1 : Values := match data with
    | none => []
    | some m => m
  let data2 := Values.Add data1 (go "key") g.key
  (g.url ++ go "/" ++ method ++ go "/" ++ go "v1" ++ go "?" ++ Values.Encode (some data2),
    match data with
    | none => none
    | some _ => some data2)

/-- Go `unmarshalData`: the pair `([]byte, error)`; `none` is nil. -/
def gameServerService.unmarshalData (_g : gameServerService) (body : Bytes) :
    Option Bytes × Option GoError :=
  match jsonUnmarshal body ⟨none⟩ with
  | (_, some err) => (none, some err)
  | (resp, none) => (resp.Data, none)

/-- What one call of `get` or `post` does: the pair `([]byte, error)` it
returns (`none` is nil), the requests it handed to the transport
(`g.http.Do`), in order, and the caller's mapping after the call. -/
structure Outcome where
  ret : Option Bytes × Option GoError
  sent : List Request
  data : Option Values

/-- Go `get`. -/
def gameServerService.get (parseErr : Bytes → Option GoError) (g : gameServerService)
    (method : Bytes) (data : Option Values) : Outcome :=
  let built := g.buildURL method data
  match NewRequest parseErr (go "GET") built.1 none with
  | Except.error err => ⟨(none, some err), [], built.2⟩
  | Except.ok req =>
    match g.http req with
    | Except.error err => ⟨(none, some err), [req], built.2⟩
    | Except.ok res =>
      match res.Body with
      | Except.error err => ⟨(none, some err), [req], built.2⟩
      | Except.ok body => ⟨g.unmarshalData body, [req], built.2⟩

/-- Go `post`.  `buildURL` is called with a nil mapping, so the caller's
mapping is not touched; it is only read by `data.Encode()`. -/
def gameServerService.post (parseErr : Bytes → Option GoError) (g : gameServerService)
    (method : Bytes) (data : Option Values) : Outcome :=
  let built := g.buildURL method none
  match NewRequest parseErr (go "POST") built.1 (some (Values.Encode data)) with
  | Except.error err => ⟨(none, some err), [], data⟩
  | Except.ok req0 =>
    let req := req0.addHeader (go "Content-Type") (go "application/x-www-form-urlencoded")
    match g.http req with
    | Except.error err => ⟨(none, some err), [req], data⟩
    | Except.ok res =>
      match res.Body with
      | Except.error err => ⟨(none, some err), [req], data⟩
      | Except.ok body => ⟨g.unmarshalData body, [req], data⟩

end Client
namespace Client

/-! ## Reading a query string back (the specification side) -/

/-- The `(name, value)` entries of a mapping: one for every value of every
name; the nil mapping has none. -/
def Values.entries (v : Values) : List (Bytes × Bytes) :=
  v.flatMap (fun kv => kv.2.map (fun x => (kv.1, x)))

/-- Join segments with `&`. -/
def joinAmp : List Bytes → Bytes
  | [] => []
  | [a] => a
  | a :: b :: l => a ++ (0x26 : Byte) :: joinAmp (b :: l)

/-- The text `escape(name)=escape(value)` of one entry. -/
def pairText (e : Bytes × Bytes) : Bytes :=
  QueryEscape e.1 ++ (0x3D : Byte) :: QueryEscape e.2

/-- Split at every occurrence of the byte `sep`. -/
def splitOnByte (sep : Byte) : Bytes → List Bytes
  | [] => [[]]
  | c :: s =>
    if c = sep then [] :: splitOnByte sep s
    else
      match splitOnByte sep s with
      | seg :: rest => (c :: seg) :: rest
      | [] => [[c]]

/-- Cut at the first occurrence of the byte `sep`. -/
def cutByte (sep : Byte) : Bytes → Option (Bytes × Bytes)
  | [] => none
  | c :: s =>
    if c = sep then some ([], s)
    else (cutByte sep s).map (fun p => (c :: p.1, p.2))

/-- The value of a hexadecimal digit, `none` for any other byte. -/
def unhex (c : Byte) : Option Nat :=
  if 0x30 ≤ c.val ∧ c.val ≤ 0x39 then some (c.val - 0x30)
  else if 0x61 ≤ c.val ∧ c.val ≤ 0x66 then some (c.val - 0x61 + 10)
  else if 0x41 ≤ c.val ∧ c.val ≤ 0x46 then some (c.val - 0x41 + 10)
  else none

/-- Percent-decoding of a query component: `+` is a space, `%XX` is the byte
with hexadecimal value `XX`; a `%` not followed by two hex digits is an
error. -/
def percentDecode : Bytes → Option Bytes
  | [] => some []
  | c :: s =>
    if c.val = 0x25 then
      match s with
      | h :: l :: s1 =>
        match unhex h, unhex l, percentDecode s1 with
        | some a, some b, some r => some (Fin.ofNat (a * 16 + b) :: r)
        | _, _, _ => none
      | _ => none
    else if c.val = 0x2B then (percentDecode s).map (fun r => (0x20 : Byte) :: r)
    else (percentDecode s).map (fun r => c :: r)

/-- Decode the segments of a query string: each is cut at its first `=` and
both halves are percent-decoded. -/
def decodeSegments : List Bytes → Option (List (Bytes × Bytes))
  | [] => some []
  | seg :: l =>
    match cutByte 0x3D seg, decodeSegments l with
    | some (n, v), some r =>
      match percentDecode n, percentDecode v with
      | some n1, some v1 => some ((n1, v1) :: r)
      | _, _ => none
    | _, _ => none

/-- Read a query string back: split on `&`, cut every segment at `=`,
percent-decode names and values. -/
def decodeQuery (q : Bytes) : Option (List (Bytes × Bytes)) :=
  decodeSegments (splitOnByte 0x26 q)

end Client
namespace Client

/-! ## The JSON grammar (RFC 8259), the specification side

The grammar is stated on the text itself: `IsValue v` says that the bytes `v`
are one JSON value without surrounding white space, `IsJSON body` that `body`
is a JSON text. -/

/-- Insignificant white space: only space, tab, carriage return, line feed. -/
def IsWs (w : Bytes) : Prop := ∀ c ∈ w, isSpace c = true

/-- A possibly empty run of decimal digits. -/
def IsDigits (d : Bytes) : Prop := ∀ c ∈ d, isDigit c = true

/-- The characters between the quotes of a string: unescaped bytes from 0x20
up other than `"` and `\`, two-byte escapes, and `\u` followed by four
hexadecimal digits. -/
inductive StrBody : Bytes → Prop where
  | nil : StrBody []
  | char (c : Byte) (s : Bytes) : 0x20 ≤ c.val → c.val ≠ 0x22 → c.val ≠ 0x5C →
      StrBody s → StrBody (c :: s)
  | esc (e : Byte) (s : Bytes) : isEscape e = true → StrBody s →
      StrBody ((0x5C : Byte) :: e :: s)
  | uni (h1 h2 h3 h4 : Byte) (s : Bytes) : isHex h1 = true → isHex h2 = true →
      isHex h3 = true → isHex h4 = true → StrBody s →
      StrBody ((0x5C : Byte) :: (0x75 : Byte) :: h1 :: h2 :: h3 :: h4 :: s)

/-- The integer part of a number: `0`, or a digit `1..9` followed by digits. -/
def IsInt (s : Bytes) : Prop :=
  s = [(0x30 : Byte)] ∨
    ∃ (c : Byte) (d : Bytes), 0x31 ≤ c.val ∧ c.val ≤ 0x39 ∧ IsDigits d ∧ s = c :: d

/-- The optional fraction: nothing, or `.` and at least one digit. -/
def IsFrac (s : Bytes) : Prop :=
  s = [] ∨ ∃ (c : Byte) (d : Bytes), isDigit c = true ∧ IsDigits d ∧ s = (0x2E : Byte) :: c :: d

/-- The optional exponent: nothing, or `e`/`E`, an optional sign, and at least
one digit. -/
def IsExp (s : Bytes) : Prop :=
  s = [] ∨ ∃ (e : Byte) (sign : Bytes) (c : Byte) (d : Bytes),
    (e.val = 0x65 ∨ e.val = 0x45) ∧
    (sign = [] ∨ sign = [(0x2B : Byte)] ∨ sign = [(0x2D : Byte)]) ∧
    isDigit c = true ∧ IsDigits d ∧ s = e :: (sign ++ c :: d)

/-- A number: optional minus, integer part, optional fraction, optional
exponent. -/
def IsNumber (s : Bytes) : Prop :=
  ∃ sign i f e : Bytes, (sign = [] ∨ sign = [(0x2D : Byte)]) ∧ IsInt i ∧ IsFrac f ∧ IsExp e ∧
    s = sign ++ (i ++ (f ++ e))

/-- Join segments with `,`. -/
def joinComma : List Bytes → Bytes
  | [] => []
  | [a] => a
  | a :: b :: l => a ++ (0x2C : Byte) :: joinComma (b :: l)

/-- One array element with its layout: white space, value, white space. -/
structure Elem where
  pre : Bytes
  val : Bytes
  post : Bytes

/-- The text of an array element. -/
def Elem.text (e : Elem) : Bytes := e.pre ++ (e.val ++ e.post)

/-- One object member with its layout: white space, the name between quotes
(`key` is the raw text between the quotes), white space, `:`, white space,
value, white space. -/
structure Member where
  pre : Bytes
  key : Bytes
  mid1 : Bytes
  mid2 : Bytes
  val : Bytes
  post : Bytes

/-- The text of an object member. -/
def Member.text (m : Member) : Bytes :=
  m.pre ++ ((0x22 : Byte) :: (m.key ++ ((0x22 : Byte) :: (m.mid1 ++ ((0x3A : Byte) ::
    (m.mid2 ++ (m.val ++ m.post)))))))

/-- The layout conditions of a member: white space where white space is
allowed and a well-formed name. -/
def Member.Layout (m : Member) : Prop :=
  IsWs m.pre ∧ StrBody m.key ∧ IsWs m.mid1 ∧ IsWs m.mid2 ∧ IsWs m.post

/-- The bytes `v` are exactly one JSON value. -/
inductive IsValue : Bytes → Prop where
  | null : IsValue (go "null")
  | true : IsValue (go "true")
  | false : IsValue (go "false")
  | number (s : Bytes) : IsNumber s → IsValue s
  | string (s : Bytes) : StrBody s → IsValue ((0x22 : Byte) :: (s ++ [(0x22 : Byte)]))
  | emptyArray (w : Bytes) : IsWs w → IsValue ((0x5B : Byte) :: (w ++ [(0x5D : Byte)]))
  | array (es : List Elem) : es ≠ [] → (∀ e ∈ es, IsWs e.pre ∧ IsWs e.post) →
      (∀ e ∈ es, IsValue e.val) →
      IsValue ((0x5B : Byte) :: (joinComma (es.map Elem.text) ++ [(0x5D : Byte)]))
  | emptyObject (w : Bytes) : IsWs w → IsValue ((0x7B : Byte) :: (w ++ [(0x7D : Byte)]))
  | object (ms : List Member) : ms ≠ [] → (∀ m ∈ ms, m.Layout) →
      (∀ m ∈ ms, IsValue m.val) →
      IsValue ((0x7B : Byte) :: (joinComma (ms.map Member.text) ++ [(0x7D : Byte)]))

/-- The bytes `v` are exactly one JSON value whose arrays and objects are
nested at most `d` levels deep (a scalar has depth 0, an array or object one
more than its deepest element).  The constructors are those of `IsValue`. -/
inductive IsValueAt : Nat → Bytes → Prop where
  | null (d : Nat) : IsValueAt d (go "null")
  | true (d : Nat) : IsValueAt d (go "true")
  | false (d : Nat) : IsValueAt d (go "false")
  | number (d : Nat) (s : Bytes) : IsNumber s → IsValueAt d s
  | string (d : Nat) (s : Bytes) : StrBody s →
      IsValueAt d ((0x22 : Byte) :: (s ++ [(0x22 : Byte)]))
  | emptyArray (d : Nat) (w : Bytes) : IsWs w →
      IsValueAt (d + 1) ((0x5B : Byte) :: (w ++ [(0x5D : Byte)]))
  | array (d : Nat) (es : List Elem) : es ≠ [] → (∀ e ∈ es, IsWs e.pre ∧ IsWs e.post) →
      (∀ e ∈ es, IsValueAt d e.val) →
      IsValueAt (d + 1) ((0x5B : Byte) :: (joinComma (es.map Elem.text) ++ [(0x5D : Byte)]))
  | emptyObject (d : Nat) (w : Bytes) : IsWs w →
      IsValueAt (d + 1) ((0x7B : Byte) :: (w ++ [(0x7D : Byte)]))
  | object (d : Nat) (ms : List Member) : ms ≠ [] → (∀ m ∈ ms, m.Layout) →
      (∀ m ∈ ms, IsValueAt d m.val) →
      IsValueAt (d + 1) ((0x7B : Byte) :: (joinComma (ms.map Member.text) ++ [(0x7D : Byte)]))

/-- The text `[[...[]...]]` of `n` arrays nested in one another (`n ≥ 1`). -/
def nestedArrays (n : Nat) : Bytes :=
  List.replicate n (0x5B : Byte) ++ List.replicate n (0x5D : Byte)

/-- The text `{"name":v}` of an object with one member, without white space. -/
def singleMember (name v : Bytes) : Bytes :=
  (0x7B : Byte) :: (0x22 : Byte) :: (name ++ ((0x22 : Byte) :: (0x3A : Byte) ::
    (v ++ [(0x7D : Byte)])))

/-- The bytes `body` are a JSON text: one value with optional white space
around it. -/
def IsJSON (body : Bytes) : Prop :=
  ∃ w1 v w2 : Bytes, IsWs w1 ∧ IsValue v ∧ IsWs w2 ∧ body = w1 ++ (v ++ w2)

/-- The text of a JSON object with the members `ms` (`w` is the white space of
an object without members), with white space `w1` before and `w2` after. -/
def objectText (w1 : Bytes) (ms : List Member) (w : Bytes) (w2 : Bytes) : Bytes :=
  w1 ++ ((0x7B : Byte) :: ((match ms with
    | [] => w
    | _ :: _ => joinComma (ms.map Member.text)) ++ ((0x7D : Byte) :: w2)))

/-- What the members of an object leave in the `Data` field, by the rule "the
last member whose name selects the field wins": `none` when no name does. -/
def lastMatch : List Member → Option Bytes → Option Bytes
  | [], acc => acc
  | m :: ms, acc => lastMatch ms (if fieldMatches m.key then some m.val else acc)

end Client

namespace Client

/-- What may follow a value inside a JSON text: nothing, white space, `,`,
`]` or `}`. -/
def Follow (rest : Bytes) : Prop :=
  ∀ c t, rest = c :: t → isSpace c = true ∨ c.val = 0x2C ∨ c.val = 0x5D ∨ c.val = 0x7D

/-- The first byte of `rest`, if any, cannot continue a number. -/
def NoNum (rest : Bytes) : Prop :=
  ∀ c t, rest = c :: t → isDigit c = false ∧ c.val ≠ 0x2E ∧ c.val ≠ 0x65 ∧ c.val ≠ 0x45

end Client
namespace Client

/-! ## Lemmas on query escaping -/

theorem go_key : go "key" = [(107 : Byte), 101, 121] := by decide

theorem upperhex_ne (n : Nat) (h : n < 16) :
    upperhex n ≠ (0x26 : Byte) ∧ upperhex n ≠ (0x3D : Byte) := by
  interval_cases n <;> decide

theorem unhex_upperhex (n : Nat) (h : n < 16) : unhex (upperhex n) = some n := by
  interval_cases n <;> decide

theorem QueryEscape_no_sep (s : Bytes) :
    (0x26 : Byte) ∉ QueryEscape s ∧ (0x3D : Byte) ∉ QueryEscape s := by
  induction s with
  | nil => simp [QueryEscape]
  | cons c s ih =>
    have hc := c.isLt
    have h1 := upperhex_ne (c.val / 16) (by omega)
    have h2 := upperhex_ne (c.val % 16) (by omega)
    unfold QueryEscape
    by_cases he : shouldEscape c = true
    · by_cases hs : c.val = 0x20
      · simp only [he, hs, if_true, List.mem_cons, not_or]
        exact ⟨⟨by decide, ih.1⟩, ⟨by decide, ih.2⟩⟩
      · simp only [he, hs, if_true, if_false, List.mem_cons, not_or]
        exact ⟨⟨by decide, Ne.symm h1.1, Ne.symm h2.1, ih.1⟩,
          ⟨by decide, Ne.symm h1.2, Ne.symm h2.2, ih.2⟩⟩
    · simp only [he, if_false, List.mem_cons, not_or, Bool.false_eq_true]
      refine ⟨⟨?_, ih.1⟩, ⟨?_, ih.2⟩⟩
      · intro hh; subst hh; exact he (by decide)
      · intro hh; subst hh; exact he (by decide)

theorem percentDecode_cons (c : Byte) (s : Bytes) :
    percentDecode (c :: s) =
    if c.val = 0x25 then
      match s with
      | h :: l :: s1 =>
        match unhex h, unhex l, percentDecode s1 with
        | some a, some b, some r => some (Fin.ofNat (a * 16 + b) :: r)
        | _, _, _ => none
      | _ => none
    else if c.val = 0x2B then (percentDecode s).map (fun r => (0x20 : Byte) :: r)
    else (percentDecode s).map (fun r => c :: r) := by
  cases s with
  | nil => rfl
  | cons h t =>
    cases t with
    | nil => rfl
    | cons l u => rfl

theorem percentDecode_QueryEscape (s : Bytes) : percentDecode (QueryEscape s) = some s := by
  induction s with
  | nil => rfl
  | cons c s ih =>
    have hc := c.isLt
    unfold QueryEscape
    by_cases he : shouldEscape c = true
    · by_cases hs : c.val = 0x20
      · have hce : c = (0x20 : Byte) := Fin.ext hs
        simp only [he, hs, if_true]
        rw [percentDecode_cons, ih, hce]; rfl
      · have h1 := unhex_upperhex (c.val / 16) (by omega)
        have h2 := unhex_upperhex (c.val % 16) (by omega)
        have h3 : (Fin.ofNat (c.val / 16 * 16 + c.val % 16) : Byte) = c := by
          apply Fin.ext
          simp only [Fin.ofNat, Fin.val_mk]
          omega
        simp only [he, hs, if_true, if_false]
        rw [percentDecode_cons]
        simp only [h1, h2, ih, h3]
        rfl
    · have hne1 : c.val ≠ 0x25 := by
        intro hh; have : c = (0x25 : Byte) := Fin.ext hh
        subst this; exact he (by decide)
      have hne2 : c.val ≠ 0x2B := by
        intro hh; have : c = (0x2B : Byte) := Fin.ext hh
        subst this; exact he (by decide)
      simp only [he, if_false, Bool.false_eq_true]
      rw [percentDecode_cons, ih]
      simp only [hne1, hne2, if_false]; rfl

/-! ## Lemmas on splitting and joining -/

theorem splitOnByte_cons (sep c : Byte) (s : Bytes) :
    splitOnByte sep (c :: s) =
    if c = sep then [] :: splitOnByte sep s
    else
      match splitOnByte sep s with
      | seg :: rest => (c :: seg) :: rest
      | [] => [[c]] := rfl

theorem cutByte_cons (sep c : Byte) (s : Bytes) :
    cutByte sep (c :: s) =
    if c = sep then some ([], s) else (cutByte sep s).map (fun p => (c :: p.1, p.2)) := rfl

theorem splitOnByte_ne_nil (sep : Byte) (s : Bytes) : splitOnByte sep s ≠ [] := by
  induction s with
  | nil => simp [splitOnByte]
  | cons c s ih =>
    unfold splitOnByte
    by_cases h : c = sep
    · simp [h]
    · simp only [h, if_false]
      cases hs : splitOnByte sep s <;> simp

theorem splitOnByte_no_sep (sep : Byte) (s : Bytes) (h : sep ∉ s) : splitOnByte sep s = [s] := by
  induction s with
  | nil => rfl
  | cons c s ih =>
    have hc : c ≠ sep := fun e => h (by simp [e])
    have hs : sep ∉ s := fun e => h (by simp [e])
    rw [splitOnByte_cons, ih hs]
    simp only [hc, if_false]

theorem splitOnByte_append (sep : Byte) (a b : Bytes) (h : sep ∉ a) :
    splitOnByte sep (a ++ sep :: b) = a :: splitOnByte sep b := by
  induction a with
  | nil => simp [splitOnByte]
  | cons c a ih =>
    have hc : c ≠ sep := fun e => h (by simp [e])
    have hs : sep ∉ a := fun e => h (by simp [e])
    show splitOnByte sep (c :: (a ++ sep :: b)) = _
    rw [splitOnByte_cons, ih hs]
    simp only [hc, if_false]

theorem splitOnByte_joinAmp (l : List Bytes) (hne : l ≠ [])
    (h : ∀ a ∈ l, (0x26 : Byte) ∉ a) : splitOnByte 0x26 (joinAmp l) = l := by
  induction l with
  | nil => exact absurd rfl hne
  | cons a l ih =>
    cases l with
    | nil => exact splitOnByte_no_sep _ _ (h a (by simp))
    | cons b l =>
      show splitOnByte 0x26 (a ++ (0x26 : Byte) :: joinAmp (b :: l)) = _
      rw [splitOnByte_append _ _ _ (h a (by simp)),
        ih (by simp) (fun x hx => h x (List.mem_cons_of_mem _ hx))]

theorem cutByte_append (sep : Byte) (a b : Bytes) (h : sep ∉ a) :
    cutByte sep (a ++ sep :: b) = some (a, b) := by
  induction a with
  | nil => simp [cutByte]
  | cons c a ih =>
    have hc : c ≠ sep := fun e => h (by simp [e])
    have hs : sep ∉ a := fun e => h (by simp [e])
    show cutByte sep (c :: (a ++ sep :: b)) = _
    rw [cutByte_cons, ih hs]
    simp only [hc, if_false, Option.map_some']

theorem decodeSegments_pairText (l : List (Bytes × Bytes)) :
    decodeSegments (l.map pairText) = some l := by
  induction l with
  | nil => rfl
  | cons e l ih =>
    show decodeSegments (pairText e :: l.map pairText) = _
    unfold decodeSegments
    unfold pairText at *
    rw [cutByte_append _ _ _ (QueryEscape_no_sep e.1).2, ih]
    simp only [percentDecode_QueryEscape]

theorem pairText_no_amp (e : Bytes × Bytes) : (0x26 : Byte) ∉ pairText e := by
  unfold pairText
  simp only [List.mem_append, List.mem_cons, not_or]
  exact ⟨(QueryEscape_no_sep e.1).1, by decide, (QueryEscape_no_sep e.2).1⟩

theorem decodeQuery_joinAmp (l : List (Bytes × Bytes)) (hne : l ≠ []) :
    decodeQuery (joinAmp (l.map pairText)) = some l := by
  unfold decodeQuery
  rw [splitOnByte_joinAmp _ (by simpa using hne), decodeSegments_pairText]
  intro a ha
  obtain ⟨e, _, rfl⟩ := List.mem_map.1 ha
  exact pairText_no_amp e

end Client
namespace Client

/-! ## Lemmas on `Values` and `Encode` -/

theorem joinAmp_eq_nil (l : List Bytes) (h : ∀ a ∈ l, a ≠ []) : joinAmp l = [] ↔ l = [] := by
  cases l with
  | nil => simp [joinAmp]
  | cons a l =>
    cases l with
    | nil => simpa [joinAmp] using h a (by simp)
    | cons b l => simp [joinAmp, h a (by simp)]

theorem joinAmp_snoc (l : List Bytes) (a : Bytes) (hl : l ≠ []) :
    joinAmp (l ++ [a]) = joinAmp l ++ (0x26 : Byte) :: a := by
  induction l with
  | nil => exact absurd rfl hl
  | cons b l ih =>
    cases l with
    | nil => rfl
    | cons c l =>
      show b ++ (0x26 : Byte) :: joinAmp ((c :: l) ++ [a]) = _
      rw [ih (by simp)]
      simp [joinAmp]

theorem pairText_ne_nil (e : Bytes × Bytes) : pairText e ≠ [] := by
  unfold pairText; simp

theorem encodeValues_join (k : Bytes) (vs : List Bytes) (l : List Bytes)
    (hl : ∀ a ∈ l, a ≠ []) :
    encodeValues (QueryEscape k) vs (joinAmp l) =
      joinAmp (l ++ vs.map (fun x => pairText (k, x))) := by
  induction vs generalizing l with
  | nil => simp [encodeValues]
  | cons x vs ih =>
    have hl2 : ∀ a ∈ l ++ [pairText (k, x)], a ≠ [] := by
      intro a ha
      rcases List.mem_append.1 ha with h | h
      · exact hl a h
      · rw [List.mem_singleton.1 h]; exact pairText_ne_nil _
    have key : (if (joinAmp l).length > 0 then joinAmp l ++ [(0x26 : Byte)] else joinAmp l) ++
        QueryEscape k ++ [(0x3D : Byte)] ++ QueryEscape x = joinAmp (l ++ [pairText (k, x)]) := by
      by_cases hn : l = []
      · subst hn; simp [joinAmp, pairText]
      · have : joinAmp l ≠ [] := fun e => hn ((joinAmp_eq_nil l hl).1 e)
        have hpos : (joinAmp l).length > 0 := List.length_pos.2 this
        rw [joinAmp_snoc _ _ hn]
        simp [hpos, pairText]
    show encodeValues (QueryEscape k) vs _ = _
    rw [key, ih _ hl2]
    simp

/-- The entries of `m` listed name by name in the order of `keys`. -/
theorem encodeKeys_join (m : Values) (keys : List Bytes) (l : List Bytes)
    (hl : ∀ a ∈ l, a ≠ []) :
    encodeKeys m keys (joinAmp l) =
      joinAmp (l ++ (keys.flatMap
        (fun k => (Values.index m k).map (fun x => (k, x)))).map pairText) := by
  induction keys generalizing l with
  | nil => simp [encodeKeys]
  | cons k keys ih =>
    show encodeKeys m keys (encodeValues (QueryEscape k) (Values.index m k) (joinAmp l)) = _
    rw [encodeValues_join k _ l hl, ih]
    · simp [List.flatMap_cons, List.map_append, Function.comp_def]
    · intro a ha
      rcases List.mem_append.1 ha with h | h
      · exact hl a h
      · obtain ⟨x, _, rfl⟩ := List.mem_map.1 h
        exact pairText_ne_nil _

theorem Encode_some (m : Values) :
    Values.Encode (some m) =
      joinAmp ((((m.map Prod.fst).insertionSort (fun a b => strLE a b = true)).flatMap
        (fun k => (Values.index m k).map (fun x => (k, x)))).map pairText) := by
  have := encodeKeys_join m ((m.map Prod.fst).insertionSort (fun a b => strLE a b = true)) []
    (by simp)
  simpa [Values.Encode, joinAmp] using this

theorem index_of_not_mem (m : Values) (k : Bytes) (h : k ∉ m.map Prod.fst) :
    Values.index m k = [] := by
  induction m with
  | nil => rfl
  | cons kv m ih =>
    obtain ⟨k1, vs⟩ := kv
    have h1 : k1 ≠ k := fun e => h (by simp [e])
    have h2 : k ∉ m.map Prod.fst := fun e => h (by simp [e])
    show (if k1 = k then vs else Values.index m k) = []
    simp only [h1, if_false, ih h2]

theorem flatMap_index_congr (m m2 : Values) (keys : List Bytes)
    (h : ∀ k ∈ keys, Values.index m k = Values.index m2 k) :
    keys.flatMap (fun k => (Values.index m k).map (fun x => (k, x))) =
      keys.flatMap (fun k => (Values.index m2 k).map (fun x => (k, x))) := by
  induction keys with
  | nil => rfl
  | cons k keys ih =>
    simp only [List.flatMap_cons]
    rw [h k (by simp), ih (fun k2 hk => h k2 (List.mem_cons_of_mem _ hk))]

theorem entries_eq_flatMap_keys (m : Values) (h : Values.WF m) :
    (m.map Prod.fst).flatMap (fun k => (Values.index m k).map (fun x => (k, x))) =
      Values.entries m := by
  induction m with
  | nil => rfl
  | cons kv m ih =>
    obtain ⟨k1, vs⟩ := kv
    have hnd : k1 ∉ m.map Prod.fst ∧ (m.map Prod.fst).Nodup := by
      simpa [Values.WF] using h
    have hidx : ∀ k ∈ m.map Prod.fst, Values.index ((k1, vs) :: m) k = Values.index m k := by
      intro k hk
      have : k1 ≠ k := fun e => hnd.1 (e ▸ hk)
      show (if k1 = k then vs else Values.index m k) = _
      simp only [this, if_false]
    have hhead : Values.index ((k1, vs) :: m) k1 = vs := by
      show (if k1 = k1 then vs else Values.index m k1) = _
      simp
    show ((k1 :: m.map Prod.fst).flatMap _) = _
    rw [List.flatMap_cons, hhead, flatMap_index_congr _ m _ hidx, ih hnd.2]
    simp [Values.entries, List.flatMap_cons]

theorem Add_of_not_has (m : Values) (k v : Bytes) (h : Values.has m k = false) :
    Values.Add m k v = m ++ [(k, [v])] := by
  induction m with
  | nil => rfl
  | cons kv m ih =>
    obtain ⟨k1, vs⟩ := kv
    have h0 : (if k1 = k then true else Values.has m k) = false := h
    have h1 : k1 ≠ k := by
      intro e; simp [e] at h0
    have h2 : Values.has m k = false := by simpa [h1] using h0
    show (if k1 = k then (k1, vs ++ [v]) :: m else (k1, vs) :: Values.Add m k v) = _
    simp only [h1, if_false, ih h2, List.cons_append]

theorem has_eq_false_iff (m : Values) (k : Bytes) :
    Values.has m k = false ↔ k ∉ m.map Prod.fst := by
  induction m with
  | nil => simp [Values.has]
  | cons kv m ih =>
    obtain ⟨k1, vs⟩ := kv
    show (if k1 = k then true else Values.has m k) = false ↔ _
    by_cases h1 : k1 = k
    · simp [h1]
    · simp only [h1, if_false, ih]
      simp [Ne.symm h1]

theorem WF_Add_of_not_has (m : Values) (k v : Bytes) (hwf : Values.WF m)
    (h : Values.has m k = false) : Values.WF (Values.Add m k v) := by
  rw [Add_of_not_has m k v h]
  have := (has_eq_false_iff m k).1 h
  unfold Values.WF at *
  rw [List.map_append, List.nodup_append]
  refine ⟨hwf, by simp, ?_⟩
  intro a ha hb
  simp at hb
  subst hb
  exact this ha

theorem entries_append (a b : Values) :
    Values.entries (a ++ b) = Values.entries a ++ Values.entries b := by
  simp [Values.entries, List.flatMap_append]

/-! ## The order of `sort.Strings` -/

theorem strLE_refl (a : Bytes) : strLE a a = true := by
  induction a with
  | nil => rfl
  | cons c a ih => simp [strLE, ih]

theorem strLE_total (a b : Bytes) : strLE a b = true ∨ strLE b a = true := by
  induction a generalizing b with
  | nil => left; rfl
  | cons c a ih =>
    cases b with
    | nil => right; rfl
    | cons d b =>
      simp only [strLE]
      by_cases h1 : c.val < d.val
      · simp [h1]
      · by_cases h2 : d.val < c.val
        · simp [h2]
        · simp only [h1, h2, if_false]; exact ih b

theorem strLE_antisymm (a b : Bytes) (h1 : strLE a b = true) (h2 : strLE b a = true) :
    a = b := by
  induction a generalizing b with
  | nil =>
    cases b with
    | nil => rfl
    | cons d b => simp [strLE] at h2
  | cons c a ih =>
    cases b with
    | nil => simp [strLE] at h1
    | cons d b =>
      simp only [strLE] at h1 h2
      by_cases hcd : c.val < d.val
      · have : ¬ d.val < c.val := by omega
        simp [hcd, this] at h2
      · by_cases hdc : d.val < c.val
        · simp [hcd, hdc] at h1
        · simp only [hcd, hdc, if_false] at h1 h2
          have : c = d := Fin.ext (by omega)
          rw [this, ih b h1 h2]

theorem strLE_trans (a b c : Bytes) (h1 : strLE a b = true) (h2 : strLE b c = true) :
    strLE a c = true := by
  induction a generalizing b c with
  | nil => rfl
  | cons x a ih =>
    cases b with
    | nil => simp [strLE] at h1
    | cons y b =>
      cases c with
      | nil => simp [strLE] at h2
      | cons z c =>
        simp only [strLE] at h1 h2 ⊢
        by_cases hxy : x.val < y.val
        · by_cases hyz : y.val < z.val
          · have : x.val < z.val := by omega
            simp [this]
          · by_cases hzy : z.val < y.val
            · simp [hyz, hzy] at h2
            · have : x.val < z.val := by omega
              simp [this]
        · by_cases hyx : y.val < x.val
          · simp [hxy, hyx] at h1
          · simp only [hxy, hyx, if_false] at h1
            by_cases hyz : y.val < z.val
            · have : x.val < z.val := by omega
              simp [this]
            · by_cases hzy : z.val < y.val
              · simp [hyz, hzy] at h2
              · simp only [hyz, hzy, if_false] at h2
                have e1 : ¬ x.val < z.val := by omega
                have e2 : ¬ z.val < x.val := by omega
                simp only [e1, e2, if_false]
                exact ih b c h1 h2

theorem strLE_isTotal : IsTotal Bytes (fun a b => strLE a b = true) := ⟨strLE_total⟩

theorem strLE_isTrans : IsTrans Bytes (fun a b => strLE a b = true) := ⟨strLE_trans⟩

theorem strLE_isAntisymm : IsAntisymm Bytes (fun a b => strLE a b = true) := ⟨strLE_antisymm⟩

theorem sorted_sortedKeys (l : List Bytes) :
    (l.insertionSort (fun a b => strLE a b = true)).Sorted (fun a b => strLE a b = true) := by
  haveI := strLE_isTotal
  haveI := strLE_isTrans
  exact List.sorted_insertionSort _ l

theorem sortedKeys_perm_eq (l1 l2 : List Bytes) (h : l1.Perm l2) :
    l1.insertionSort (fun a b => strLE a b = true) =
      l2.insertionSort (fun a b => strLE a b = true) := by
  haveI := strLE_isAntisymm
  exact List.eq_of_perm_of_sorted
    (((List.perm_insertionSort _ l1).trans h).trans (List.perm_insertionSort _ l2).symm)
    (sorted_sortedKeys l1) (sorted_sortedKeys l2)

theorem index_perm (m1 m2 : Values) (h : m1.Perm m2) (hwf : Values.WF m1) (k : Bytes) :
    Values.index m1 k = Values.index m2 k := by
  induction h with
  | nil => rfl
  | @cons x l1 l2 _ ih =>
    obtain ⟨k1, vs⟩ := x
    have hnd : k1 ∉ l1.map Prod.fst ∧ (l1.map Prod.fst).Nodup := by
      simpa [Values.WF] using hwf
    show (if k1 = k then vs else _) = (if k1 = k then vs else _)
    rw [ih hnd.2]
  | swap x y l =>
    obtain ⟨k1, v1⟩ := x
    obtain ⟨k2, v2⟩ := y
    have hne : k2 ≠ k1 := by
      have : (k2 :: k1 :: l.map Prod.fst).Nodup := by simpa [Values.WF] using hwf
      intro e; simp [e] at this
    show (if k2 = k then v2 else if k1 = k then v1 else _) =
      (if k1 = k then v1 else if k2 = k then v2 else _)
    by_cases a1 : k1 = k
    · have : k2 ≠ k := fun e => hne (e.trans a1.symm)
      simp [a1, this]
    · simp [a1]
  | trans h1 _ ih1 ih2 =>
    have hwf2 : Values.WF _ := (List.Perm.nodup_iff (h1.map Prod.fst)).1 hwf
    rw [ih1 hwf, ih2 hwf2]

theorem Encode_perm (m1 m2 : Values) (h : m1.Perm m2) (hwf : Values.WF m1) :
    Values.Encode (some m1) = Values.Encode (some m2) := by
  rw [Encode_some, Encode_some, sortedKeys_perm_eq _ _ (h.map Prod.fst),
    flatMap_index_congr m1 m2 _ (fun k _ => index_perm m1 m2 h hwf k)]

theorem sortedEntries_perm (m : Values) (hwf : Values.WF m) :
    (((m.map Prod.fst).insertionSort (fun a b => strLE a b = true)).flatMap
        (fun k => (Values.index m k).map (fun x => (k, x)))).Perm (Values.entries m) := by
  rw [← entries_eq_flatMap_keys m hwf]
  exact List.Perm.flatMap_right _ (List.perm_insertionSort _ _)

theorem pairwise_flatMap_keys (m : Values) (keys : List Bytes)
    (h : keys.Pairwise (fun a b => strLE a b = true)) :
    (keys.flatMap (fun k => (Values.index m k).map (fun x => (k, x)))).Pairwise
      (fun a b => strLE a.1 b.1 = true) := by
  induction keys with
  | nil => simp
  | cons k keys ih =>
    rw [List.pairwise_cons] at h
    rw [List.flatMap_cons, List.pairwise_append]
    refine ⟨?_, ih h.2, ?_⟩
    · rw [List.pairwise_map]
      exact List.pairwise_of_forall (fun _ _ => strLE_refl k)
    · intro a ha b hb
      obtain ⟨x, _, rfl⟩ := List.mem_map.1 ha
      obtain ⟨k2, hk2, hb2⟩ := List.mem_flatMap.1 hb
      obtain ⟨y, _, rfl⟩ := List.mem_map.1 hb2
      exact h.1 k2 hk2

end Client
namespace Client

/-! ## URL construction -/

theorem buildURL_fst (g : gameServerService) (m : Bytes) (p : Option Values) :
    (g.buildURL m p).1 = g.url ++ go "/" ++ m ++ go "/v1?" ++
      Values.Encode (some (Values.Add (p.getD []) (go "key") g.key)) := by
  have h : go "/" ++ go "v1" ++ go "?" = go "/v1?" := by decide
  cases p <;>
    simp only [gameServerService.buildURL, Option.getD, List.append_assoc] <;>
    rw [← List.append_assoc (go "/") (go "v1"), ← List.append_assoc (go "/" ++ go "v1"), h]

theorem Encode_Add_key (p : Values) (k : Bytes) (hwf : Values.WF p)
    (hkey : Values.has p (go "key") = false) :
    ∃ L : List (Bytes × Bytes),
      L.Perm (Values.entries p ++ [(go "key", k)]) ∧
      L.Pairwise (fun a b => strLE a.1 b.1 = true) ∧
      L ≠ [] ∧
      Values.Encode (some (Values.Add p (go "key") k)) = joinAmp (L.map pairText) := by
  refine ⟨_, ?_, ?_, ?_, Encode_some _⟩
  · have h1 := sortedEntries_perm _ (WF_Add_of_not_has p (go "key") k hwf hkey)
    rw [Add_of_not_has p _ k hkey, entries_append] at h1
    rw [Add_of_not_has p _ k hkey]
    simpa [Values.entries] using h1
  · exact pairwise_flatMap_keys _ _ (sorted_sortedKeys _)
  · intro hnil
    have h1 := sortedEntries_perm _ (WF_Add_of_not_has p (go "key") k hwf hkey)
    rw [hnil, Add_of_not_has p _ k hkey, entries_append] at h1
    have := h1.length_eq
    simp [Values.entries] at this

/-- C1. For a mapping `p` (possibly nil) without an entry named `key`,
`buildURL(m, p)` is `base/m/v1?q`, and reading `q` back (split on `&`, cut at
`=`, percent-decode) gives exactly the entries of `p` and one entry
`key = apiKey`, in some order. -/
theorem buildURL_query_entries (g : gameServerService) (m : Bytes) (p : Option Values)
    (hwf : Values.WF (p.getD [])) (hkey : Values.has (p.getD []) (go "key") = false) :
    ∃ (q : Bytes) (L : List (Bytes × Bytes)),
      (g.buildURL m p).1 = g.url ++ go "/" ++ m ++ go "/v1?" ++ q ∧
      decodeQuery q = some L ∧
      L.Perm (Values.entries (p.getD []) ++ [(go "key", g.key)]) := by
  obtain ⟨L, hperm, _, hne, henc⟩ := Encode_Add_key (p.getD []) g.key hwf hkey
  exact ⟨_, L, buildURL_fst g m p, by rw [henc, decodeQuery_joinAmp L hne], hperm⟩

/-- C10. For a mapping `p` without a `key` entry the query of `buildURL(m, p)`
is the `&`-joined list of `escape(name)=escape(value)` over the entries of `p`
plus `(key, apiKey)` in ascending byte order of the names; a mapping with the
same contents inserted in another order gives the same URL; and for the single
parameter `steamid` the URL reads `...?key=K&steamid=V`. -/
theorem buildURL_query_sorted (g : gameServerService) (m : Bytes) (p : Values)
    (hwf : Values.WF p) (hkey : Values.has p (go "key") = false) :
    (∃ L : List (Bytes × Bytes),
      L.Perm (Values.entries p ++ [(go "key", g.key)]) ∧
      L.Pairwise (fun a b => strLE a.1 b.1 = true) ∧
      (g.buildURL m (some p)).1 =
        g.url ++ go "/" ++ m ++ go "/v1?" ++ joinAmp (L.map pairText)) ∧
    (∀ p2 : Values, p.Perm p2 → (g.buildURL m (some p2)).1 = (g.buildURL m (some p)).1) ∧
    (∀ v : Bytes, (g.buildURL m (some [(go "steamid", [v])])).1 =
      g.url ++ go "/" ++ m ++ go "/v1?" ++ go "key=" ++ QueryEscape g.key ++
        go "&steamid=" ++ QueryEscape v) := by
  refine ⟨?_, ?_, ?_⟩
  · obtain ⟨L, hperm, hsorted, _, henc⟩ := Encode_Add_key p g.key hwf hkey
    exact ⟨L, hperm, hsorted, by rw [buildURL_fst, ← henc]; rfl⟩
  · intro p2 hp
    have hkey2 : Values.has p2 (go "key") = false := by
      rw [has_eq_false_iff] at hkey ⊢
      exact fun h => hkey ((hp.map Prod.fst).mem_iff.2 h)
    rw [buildURL_fst, buildURL_fst]
    simp only [Option.getD]
    rw [Add_of_not_has p _ _ hkey, Add_of_not_has p2 _ _ hkey2]
    rw [Encode_perm (p ++ _) (p2 ++ _) (hp.append_right _)]
    have := WF_Add_of_not_has p (go "key") g.key hwf hkey
    rwa [Add_of_not_has p _ _ hkey] at this
  · intro v
    have hAdd : Values.Add [(go "steamid", [v])] (go "key") g.key =
        [(go "steamid", [v]), (go "key", [g.key])] :=
      Add_of_not_has _ _ _ (by
        show (if go "steamid" = go "key" then true else false) = false
        rw [if_neg (by decide)])
    have hs : [go "steamid", go "key"].insertionSort (fun a b => strLE a b = true) =
        [go "key", go "steamid"] := by decide
    have h1 : Values.index [(go "steamid", [v]), (go "key", [g.key])] (go "key") = [g.key] := by
      show (if go "steamid" = go "key" then [v] else if go "key" = go "key" then [g.key] else _)
        = _
      rw [if_neg (by decide), if_pos rfl]
    have h2 : Values.index [(go "steamid", [v]), (go "key", [g.key])] (go "steamid") = [v] := by
      show (if go "steamid" = go "steamid" then [v] else _) = _
      rw [if_pos rfl]
    have h3 : QueryEscape (go "key") = go "key" := by decide
    have h4 : QueryEscape (go "steamid") = go "steamid" := by decide
    have h5 : go "key" ++ [(0x3D : Byte)] = go "key=" := by decide
    have h6 : (0x26 : Byte) :: go "steamid" ++ [(0x3D : Byte)] = go "&steamid=" := by decide
    rw [buildURL_fst]
    simp only [Option.getD]
    rw [hAdd, Encode_some]
    simp only [List.map, hs, List.flatMap_cons, List.flatMap_nil, h1, h2, List.append_nil,
      List.singleton_append, joinAmp, pairText, h3, h4, List.append_assoc]
    rw [← h5, ← h6]
    simp

end Client
namespace Client

/-! ## Requests and transport outcomes -/

theorem Encode_key_only (k : Bytes) :
    Values.Encode (some (Values.Add [] (go "key") k)) = go "key=" ++ QueryEscape k := by
  have h : QueryEscape (go "key") ++ [(0x3D : Byte)] = go "key=" := by decide
  show ([] ++ QueryEscape (go "key") ++ [(0x3D : Byte)] ++ QueryEscape k) = _
  rw [List.nil_append, h]

theorem buildURL_nil (g : gameServerService) (m : Bytes) :
    (g.buildURL m none).1 = g.url ++ go "/" ++ m ++ go "/v1?key=" ++ QueryEscape g.key := by
  have h : go "/v1?" ++ go "key=" = go "/v1?key=" := by decide
  rw [buildURL_fst]
  simp only [Option.getD]
  rw [Encode_key_only, ← h]
  simp only [List.append_assoc]

theorem stringsCut_absent (sep : Byte) (a : Bytes) (h : sep ∉ a) :
    stringsCut sep a = (a, []) := by
  induction a with
  | nil => rfl
  | cons c a ih =>
    have hc : c ≠ sep := fun e => h (by simp [e])
    have hs : sep ∉ a := fun e => h (by simp [e])
    show (if c = sep then ([], a) else (c :: (stringsCut sep a).1, (stringsCut sep a).2)) = _
    rw [if_neg hc, ih hs]

theorem stringsCut_append (sep : Byte) (a b : Bytes) (h : sep ∉ a) :
    stringsCut sep (a ++ sep :: b) = (a, b) := by
  induction a with
  | nil =>
    show (if sep = sep then ([], b) else _) = _
    rw [if_pos rfl]
  | cons c a ih =>
    have hc : c ≠ sep := fun e => h (by simp [e])
    have hs : sep ∉ a := fun e => h (by simp [e])
    show (if c = sep then ([], a ++ sep :: b)
      else (c :: (stringsCut sep (a ++ sep :: b)).1, (stringsCut sep (a ++ sep :: b)).2)) = _
    rw [if_neg hc, ih hs]

theorem upperhex_ne_reserved (n : Nat) (h : n < 16) :
    upperhex n ≠ (0x3F : Byte) ∧ upperhex n ≠ (0x23 : Byte) := by
  interval_cases n <;> decide

theorem QueryEscape_no_reserved (s : Bytes) :
    (0x3F : Byte) ∉ QueryEscape s ∧ (0x23 : Byte) ∉ QueryEscape s := by
  induction s with
  | nil => simp [QueryEscape]
  | cons c s ih =>
    have hc := c.isLt
    have h1 := upperhex_ne_reserved (c.val / 16) (by omega)
    have h2 := upperhex_ne_reserved (c.val % 16) (by omega)
    unfold QueryEscape
    by_cases he : shouldEscape c = true
    · by_cases hs : c.val = 0x20
      · simp only [he, hs, if_true, List.mem_cons, not_or]
        exact ⟨⟨by decide, ih.1⟩, ⟨by decide, ih.2⟩⟩
      · simp only [he, hs, if_true, if_false, List.mem_cons, not_or]
        exact ⟨⟨by decide, Ne.symm h1.1, Ne.symm h2.1, ih.1⟩,
          ⟨by decide, Ne.symm h1.2, Ne.symm h2.2, ih.2⟩⟩
    · simp only [he, if_false, List.mem_cons, not_or, Bool.false_eq_true]
      refine ⟨⟨?_, ih.1⟩, ⟨?_, ih.2⟩⟩
      · intro hh; subst hh; exact he (by decide)
      · intro hh; subst hh; exact he (by decide)

theorem urlParse_post_url (b m k : Bytes)
    (hb : (0x3F : Byte) ∉ b ∧ (0x23 : Byte) ∉ b) (hm : (0x3F : Byte) ∉ m ∧ (0x23 : Byte) ∉ m) :
    urlParse (b ++ go "/" ++ m ++ go "/v1?key=" ++ QueryEscape k) =
      ⟨b ++ go "/" ++ m ++ go "/v1", go "key=" ++ QueryEscape k, []⟩ := by
  have hsplit : go "/v1?key=" = go "/v1" ++ (0x3F : Byte) :: go "key=" := by decide
  have hraw : b ++ go "/" ++ m ++ go "/v1?key=" ++ QueryEscape k =
      (b ++ go "/" ++ m ++ go "/v1") ++ (0x3F : Byte) :: (go "key=" ++ QueryEscape k) := by
    rw [hsplit]; simp only [List.append_assoc, List.cons_append]
  have hq := QueryEscape_no_reserved k
  have hhead1 : (0x3F : Byte) ∉ b ++ go "/" ++ m ++ go "/v1" := by
    simp only [List.mem_append, not_or]
    exact ⟨⟨⟨hb.1, by decide⟩, hm.1⟩, by decide⟩
  have hhead2 : (0x23 : Byte) ∉ b ++ go "/" ++ m ++ go "/v1" := by
    simp only [List.mem_append, not_or]
    exact ⟨⟨⟨hb.2, by decide⟩, hm.2⟩, by decide⟩
  have hfrag : (0x23 : Byte) ∉
      (b ++ go "/" ++ m ++ go "/v1") ++ (0x3F : Byte) :: (go "key=" ++ QueryEscape k) := by
    simp only [List.mem_append, List.mem_cons, not_or] at hhead2 ⊢
    exact ⟨hhead2, by decide, by decide, hq.2⟩
  unfold urlParse
  rw [hraw, stringsCut_absent _ _ hfrag]
  simp only
  rw [stringsCut_append _ _ _ hhead1]

/-- C2 (as stated) fails: the request carries the URL as `url.Parse` reads it,
and a `?` or `#` in the method name moves the boundary of the query.  For the
method name `x?y=1` the query string of the request is `y=1/v1?key=K`, which
reads back as an entry named `y`; for `x#y` the request has no query string
at all. -/
theorem post_query_taken_from_method :
    ((gameServerService.mk (fun _ => Except.error (GoError.other 0)) (go "B")
        (go "K")).post (fun _ => none) (go "x?y=1") none).sent =
      [⟨go "POST",
        ⟨go "B/x", go "y=1/v1?key=K", []⟩,
        some [], [(go "Content-Type", go "application/x-www-form-urlencoded")]⟩] ∧
    decodeQuery (go "y=1/v1?key=K") = some [(go "y", go "1/v1?key=K")] ∧
    ((gameServerService.mk (fun _ => Except.error (GoError.other 0)) (go "B")
        (go "K")).post (fun _ => none) (go "x#y") none).sent =
      [⟨go "POST",
        ⟨go "B/x", [], go "y/v1?key=K"⟩,
        some [], [(go "Content-Type", go "application/x-www-form-urlencoded")]⟩] := by
  refine ⟨by decide, by decide, by decide⟩

/-- C2 (amended). When neither the base URL nor the method name contains `?`
or `#`, `post(m, p)` hands the transport exactly one request when
`http.NewRequest` accepts the URL (and none otherwise): a POST whose body is
the form encoding of `p`, whose only header is
`Content-Type: application/x-www-form-urlencoded`, and whose URL is the
parsed `base/m/v1?key=<escaped API key>`, with `base/m/v1` in front of the
query, the query string `key=<escaped API key>` and no fragment.  The query
string of every request sent reads back as the single entry `key = apiKey`,
and for `p = {foo: "bar baz"}` the body is `foo=bar+baz`. -/
theorem post_request (parseErr : Bytes → Option GoError) (g : gameServerService)
    (m : Bytes) (p : Option Values)
    (hb : (0x3F : Byte) ∉ g.url ∧ (0x23 : Byte) ∉ g.url)
    (hm : (0x3F : Byte) ∉ m ∧ (0x23 : Byte) ∉ m) :
    (g.post parseErr m p).sent =
      (match parseErr (g.url ++ go "/" ++ m ++ go "/v1?key=" ++ QueryEscape g.key) with
       | some _ => []
       | none =>
         [⟨go "POST", ⟨g.url ++ go "/" ++ m ++ go "/v1", go "key=" ++ QueryEscape g.key, []⟩,
           some (Values.Encode p),
           [(go "Content-Type", go "application/x-www-form-urlencoded")]⟩]) ∧
    (∀ req ∈ (g.post parseErr m p).sent,
      decodeQuery req.URL.RawQuery = some [(go "key", g.key)]) ∧
    Values.Encode (some [(go "foo", [go "bar baz"])]) = go "foo=bar+baz" := by
  have hsent : (g.post parseErr m p).sent =
      (match parseErr (g.url ++ go "/" ++ m ++ go "/v1?key=" ++ QueryEscape g.key) with
       | some _ => []
       | none =>
         [⟨go "POST", ⟨g.url ++ go "/" ++ m ++ go "/v1", go "key=" ++ QueryEscape g.key, []⟩,
           some (Values.Encode p),
           [(go "Content-Type", go "application/x-www-form-urlencoded")]⟩]) := by
    unfold gameServerService.post NewRequest
    simp only [buildURL_nil]
    cases parseErr (g.url ++ go "/" ++ m ++ go "/v1?key=" ++ QueryEscape g.key) with
    | some e => rfl
    | none =>
      simp only [Request.addHeader, List.nil_append, urlParse_post_url g.url m g.key hb hm]
      generalize g.http _ = r
      rcases r with e | ⟨st, e | body⟩ <;> rfl
  have hdec : decodeQuery (go "key=" ++ QueryEscape g.key) = some [(go "key", g.key)] := by
    have h := decodeQuery_joinAmp [(go "key", g.key)] (by simp)
    have h2 : QueryEscape (go "key") ++ [(0x3D : Byte)] = go "key=" := by decide
    simp only [List.map, joinAmp, pairText] at h
    rw [← h2]
    simpa using h
  refine ⟨hsent, ?_, by decide⟩
  intro req hreq
  rw [hsent] at hreq
  cases hpe : parseErr (g.url ++ go "/" ++ m ++ go "/v1?key=" ++ QueryEscape g.key) with
  | some e => rw [hpe] at hreq; exact absurd hreq (by simp)
  | none =>
    rw [hpe] at hreq
    rw [List.mem_singleton.1 hreq]
    exact hdec

/-- C6. When the transport answers the request of `get` (resp. `post`) with an
error `e`, the call returns the pair `(nil, e)`: the very error value, and no
payload; no response body exists, so nothing is unmarshalled. -/
theorem transport_error_returned (parseErr : Bytes → Option GoError) (g : gameServerService)
    (m : Bytes) (p : Option Values) (e : GoError) :
    (parseErr (g.buildURL m p).1 = none →
      g.http ⟨go "GET", urlParse (g.buildURL m p).1, none, []⟩ = Except.error e →
      (g.get parseErr m p).ret = (none, some e)) ∧
    (parseErr (g.buildURL m none).1 = none →
      g.http ⟨go "POST", urlParse (g.buildURL m none).1, some (Values.Encode p),
        [(go "Content-Type", go "application/x-www-form-urlencoded")]⟩ = Except.error e →
      (g.post parseErr m p).ret = (none, some e)) := by
  constructor
  · intro h1 h2
    unfold gameServerService.get NewRequest
    simp only [h1, h2]
  · intro h1 h2
    unfold gameServerService.post NewRequest
    simp only [h1, Request.addHeader, List.nil_append, h2]

/-- C9. Two transports that answer the request of `get` (resp. `post`) with
the same body bytes but with status codes `s1` and `s2` give the same
returned pair, namely `unmarshalData` of the body. -/
theorem status_code_ignored (parseErr : Bytes → Option GoError)
    (t1 t2 : Request → Except GoError Response) (url key m : Bytes) (p : Option Values)
    (s1 s2 : Nat) (body : Bytes) :
    (parseErr ((gameServerService.mk t1 url key).buildURL m p).1 = none →
      t1 ⟨go "GET", urlParse ((gameServerService.mk t1 url key).buildURL m p).1, none, []⟩ =
        Except.ok ⟨s1, Except.ok body⟩ →
      t2 ⟨go "GET", urlParse ((gameServerService.mk t1 url key).buildURL m p).1, none, []⟩ =
        Except.ok ⟨s2, Except.ok body⟩ →
      ((gameServerService.mk t1 url key).get parseErr m p).ret =
        ((gameServerService.mk t2 url key).get parseErr m p).ret ∧
      ((gameServerService.mk t1 url key).get parseErr m p).ret =
        (gameServerService.mk t1 url key).unmarshalData body) ∧
    (parseErr ((gameServerService.mk t1 url key).buildURL m none).1 = none →
      t1 ⟨go "POST", urlParse ((gameServerService.mk t1 url key).buildURL m none).1,
        some (Values.Encode p),
        [(go "Content-Type", go "application/x-www-form-urlencoded")]⟩ =
        Except.ok ⟨s1, Except.ok body⟩ →
      t2 ⟨go "POST", urlParse ((gameServerService.mk t1 url key).buildURL m none).1,
        some (Values.Encode p),
        [(go "Content-Type", go "application/x-www-form-urlencoded")]⟩ =
        Except.ok ⟨s2, Except.ok body⟩ →
      ((gameServerService.mk t1 url key).post parseErr m p).ret =
        ((gameServerService.mk t2 url key).post parseErr m p).ret ∧
      ((gameServerService.mk t1 url key).post parseErr m p).ret =
        (gameServerService.mk t1 url key).unmarshalData body) := by
  constructor
  · intro h0 h1 h2
    have hb : ((gameServerService.mk t2 url key).buildURL m p) =
        ((gameServerService.mk t1 url key).buildURL m p) := rfl
    unfold gameServerService.get NewRequest
    simp only [hb, h0, h1, h2]
    exact ⟨rfl, trivial⟩
  · intro h0 h1 h2
    have hb : ((gameServerService.mk t2 url key).buildURL m none) =
        ((gameServerService.mk t1 url key).buildURL m none) := rfl
    unfold gameServerService.post NewRequest
    simp only [hb, h0, Request.addHeader, List.nil_append, h1, h2]
    exact ⟨rfl, trivial⟩

/-- C7. `buildURL` is not pure: with the mapping `{a: ["1"]}` and API key `K`
the first call returns `B/M/v1?a=1&key=K` and leaves the caller's mapping as
`{a: ["1"], key: ["K"]}`; a second call with that same mapping returns
`B/M/v1?a=1&key=K&key=K`.  `get` passes the mutation on to its caller. -/
theorem buildURL_mutates_mapping :
    (gameServerService.mk (fun _ => Except.error (GoError.other 0)) (go "B") (go "K")).buildURL
        (go "M") (some [(go "a", [go "1"])]) =
      (go "B/M/v1?a=1&key=K", some [(go "a", [go "1"]), (go "key", [go "K"])]) ∧
    (gameServerService.mk (fun _ => Except.error (GoError.other 0)) (go "B") (go "K")).buildURL
        (go "M") (some [(go "a", [go "1"]), (go "key", [go "K"])]) =
      (go "B/M/v1?a=1&key=K&key=K",
        some [(go "a", [go "1"]), (go "key", [go "K", go "K"])]) ∧
    ((gameServerService.mk (fun _ => Except.error (GoError.other 0)) (go "B") (go "K")).get
        (fun _ => none) (go "M") (some [(go "a", [go "1"])])).data =
      some [(go "a", [go "1"]), (go "key", [go "K"])] := by
  refine ⟨?_, ?_, ?_⟩ <;> decide

end Client
namespace Client

/-! ## Lemmas on white space and digit runs -/

theorem IsWs_nil : IsWs [] := fun _ h => nomatch h

theorem IsWs_append {a b : Bytes} (ha : IsWs a) (hb : IsWs b) : IsWs (a ++ b) := by
  intro c hc
  rcases List.mem_append.1 hc with h | h
  · exact ha c h
  · exact hb c h

theorem skipSpace_cons_of_not_space (c : Byte) (t : Bytes) (h : isSpace c = false) :
    skipSpace (c :: t) = c :: t := by
  simp [skipSpace, List.dropWhile, h]

theorem skipSpace_ws_append (w rest : Bytes) (hw : IsWs w) :
    skipSpace (w ++ rest) = skipSpace rest := by
  induction w with
  | nil => rfl
  | cons c w ih =>
    have hc : isSpace c = true := hw c (by simp)
    have hw2 : IsWs w := fun d hd => hw d (List.mem_cons_of_mem _ hd)
    show List.dropWhile isSpace (c :: (w ++ rest)) = _
    rw [List.dropWhile_cons_of_pos hc]
    exact ih hw2

theorem skipSpace_split (x : Bytes) : ∃ w : Bytes, IsWs w ∧ x = w ++ skipSpace x := by
  refine ⟨x.takeWhile isSpace, ?_, (List.takeWhile_append_dropWhile isSpace x).symm⟩
  intro c hc
  exact List.mem_takeWhile_imp hc

theorem skipSpace_head (x : Bytes) (c : Byte) (t : Bytes) (h : skipSpace x = c :: t) :
    isSpace c = false := by
  induction x with
  | nil => simp [skipSpace] at h
  | cons d x ih =>
    by_cases hd : isSpace d = true
    · have : skipSpace (d :: x) = skipSpace x := List.dropWhile_cons_of_pos hd
      rw [this] at h
      exact ih h
    · have hd2 : isSpace d = false := by simpa using hd
      rw [skipSpace_cons_of_not_space d x hd2] at h
      injection h with h1 _
      rw [← h1]; exact hd2

theorem skipSpace_eq_nil_iff (x : Bytes) : skipSpace x = [] ↔ IsWs x := by
  constructor
  · intro h
    obtain ⟨w, hw, hx⟩ := skipSpace_split x
    rw [h, List.append_nil] at hx
    rw [hx]; exact hw
  · intro h
    have := skipSpace_ws_append x [] h
    rw [List.append_nil] at this
    rw [this]; rfl

theorem dropDigits_append (d rest : Bytes) (hd : IsDigits d)
    (hr : ∀ c t, rest = c :: t → isDigit c = false) :
    (d ++ rest).dropWhile isDigit = rest := by
  induction d with
  | nil =>
    cases rest with
    | nil => rfl
    | cons c t => simp [List.dropWhile, hr c t rfl]
  | cons c d ih =>
    have hc : isDigit c = true := hd c (by simp)
    show List.dropWhile isDigit (c :: (d ++ rest)) = _
    rw [List.dropWhile_cons_of_pos hc]
    exact ih (fun x hx => hd x (List.mem_cons_of_mem _ hx))

theorem dropDigits_split (x : Bytes) : ∃ d : Bytes, IsDigits d ∧ x = d ++ x.dropWhile isDigit := by
  refine ⟨x.takeWhile isDigit, ?_, (List.takeWhile_append_dropWhile isDigit x).symm⟩
  intro c hc
  exact List.mem_takeWhile_imp hc

/-! ## String literals -/

theorem scanString_cons (c : Byte) (s : Bytes) :
    scanString (c :: s) =
    if c.val = 0x22 then some s
    else if c.val = 0x5C then
      match s with
      | [] => none
      | e :: s1 =>
        if isEscape e then scanString s1
        else if e.val = 0x75 then
          match s1 with
          | h1 :: h2 :: h3 :: h4 :: s2 =>
            if isHex h1 && isHex h2 && isHex h3 && isHex h4 then scanString s2 else none
          | _ => none
        else none
    else if c.val < 0x20 then none
    else scanString s := by
  rcases s with _ | ⟨e, _ | ⟨h1, _ | ⟨h2, _ | ⟨h3, _ | ⟨h4, s2⟩⟩⟩⟩⟩ <;> rfl

theorem scanString_complete (b rest : Bytes) (hb : StrBody b) :
    scanString (b ++ (0x22 : Byte) :: rest) = some rest := by
  induction hb with
  | nil =>
    show scanString ((0x22 : Byte) :: rest) = _
    rw [scanString_cons, if_pos (by decide)]
  | char c s h1 h2 h3 _ ih =>
    show scanString (c :: (s ++ (0x22 : Byte) :: rest)) = _
    rw [scanString_cons, if_neg h2, if_neg h3, if_neg (by omega), ih]
  | esc e s he _ ih =>
    show scanString ((0x5C : Byte) :: e :: (s ++ (0x22 : Byte) :: rest)) = _
    rw [scanString_cons, if_neg (by decide), if_pos (by decide)]
    simp only [he, if_true, ih]
  | uni h1 h2 h3 h4 s a1 a2 a3 a4 _ ih =>
    show scanString ((0x5C : Byte) :: (0x75 : Byte) :: h1 :: h2 :: h3 :: h4 ::
      (s ++ (0x22 : Byte) :: rest)) = _
    rw [scanString_cons, if_neg (by decide), if_pos (by decide)]
    have hne : isEscape (0x75 : Byte) = false := by decide
    simp only [hne, Bool.false_eq_true, if_false, a1, a2, a3, a4, Bool.and_self, if_true, ih]
    rfl

theorem scanString_sound_aux (n : Nat) : ∀ (s rest : Bytes), s.length ≤ n →
    scanString s = some rest → ∃ b : Bytes, StrBody b ∧ s = b ++ (0x22 : Byte) :: rest := by
  induction n with
  | zero =>
    intro s rest hl h
    have : s = [] := List.length_eq_zero.1 (Nat.le_zero.1 hl)
    subst this
    simp [scanString] at h
  | succ n ih =>
    intro s rest hl h
    cases s with
    | nil => simp [scanString] at h
    | cons c s =>
      rw [scanString_cons] at h
      by_cases h1 : c.val = 0x22
      · rw [if_pos h1] at h
        injection h with h
        have hc : c = (0x22 : Byte) := Fin.ext h1
        exact ⟨[], StrBody.nil, by rw [hc, h]; rfl⟩
      · rw [if_neg h1] at h
        by_cases h2 : c.val = 0x5C
        · rw [if_pos h2] at h
          have hc : c = (0x5C : Byte) := Fin.ext h2
          cases s with
          | nil => simp at h
          | cons e s1 =>
            simp only at h
            by_cases h3 : isEscape e = true
            · rw [if_pos h3] at h
              obtain ⟨b, hb, hs⟩ := ih s1 rest (by simp at hl ⊢; omega) h
              exact ⟨(0x5C : Byte) :: e :: b, StrBody.esc e b h3 hb, by rw [hc, hs]; rfl⟩
            · rw [if_neg h3] at h
              by_cases h4 : e.val = 0x75
              · rw [if_pos h4] at h
                have he : e = (0x75 : Byte) := Fin.ext h4
                rcases s1 with _ | ⟨x1, _ | ⟨x2, _ | ⟨x3, _ | ⟨x4, s2⟩⟩⟩⟩ <;>
                  simp only [reduceCtorEq] at h
                by_cases h5 : (isHex x1 && isHex x2 && isHex x3 && isHex x4) = true
                · rw [if_pos h5] at h
                  simp only [Bool.and_eq_true] at h5
                  obtain ⟨b, hb, hs⟩ := ih s2 rest (by simp at hl ⊢; omega) h
                  exact ⟨(0x5C : Byte) :: (0x75 : Byte) :: x1 :: x2 :: x3 :: x4 :: b,
                    StrBody.uni x1 x2 x3 x4 b h5.1.1.1 h5.1.1.2 h5.1.2 h5.2 hb,
                    by rw [hc, he, hs]; rfl⟩
                · rw [if_neg h5] at h
                  exact absurd h (by simp)
              · rw [if_neg h4] at h
                exact absurd h (by simp)
        · rw [if_neg h2] at h
          by_cases h3 : c.val < 0x20
          · rw [if_pos h3] at h
            exact absurd h (by simp)
          · rw [if_neg h3] at h
            obtain ⟨b, hb, hs⟩ := ih s rest (by simp at hl ⊢; omega) h
            exact ⟨c :: b, StrBody.char c b (by omega) h1 h2 hb, by rw [hs]; rfl⟩

theorem scanString_sound (s rest : Bytes) (h : scanString s = some rest) :
    ∃ b : Bytes, StrBody b ∧ s = b ++ (0x22 : Byte) :: rest :=
  scanString_sound_aux s.length s rest (Nat.le_refl _) h

end Client
namespace Client

/-! ## Number literals -/

theorem NoNum_of_Follow {rest : Bytes} (h : Follow rest) : NoNum rest := by
  intro c t hr
  have hc := c.isLt
  rcases h c t hr with h1 | h1 | h1 | h1
  · simp only [isSpace, decide_eq_true_eq] at h1
    simp only [isDigit, decide_eq_false_iff_not]
    omega
  all_goals
    simp only [isDigit, decide_eq_false_iff_not]
    omega

theorem scanDigits1_sound (s r : Bytes) (h : scanDigits1 s = some r) :
    ∃ (c : Byte) (d : Bytes), isDigit c = true ∧ IsDigits d ∧ s = c :: (d ++ r) := by
  cases s with
  | nil => simp [scanDigits1] at h
  | cons c t =>
    simp only [scanDigits1] at h
    by_cases hc : isDigit c = true
    · rw [if_pos hc] at h
      injection h with h
      obtain ⟨d, hd, ht⟩ := dropDigits_split t
      exact ⟨c, d, hc, hd, by rw [← h, ← ht]⟩
    · rw [if_neg hc] at h
      exact absurd h (by simp)

theorem scanDigits1_complete (c : Byte) (d r : Bytes) (hc : isDigit c = true)
    (hd : IsDigits d) (hr : ∀ x t, r = x :: t → isDigit x = false) :
    scanDigits1 (c :: (d ++ r)) = some r := by
  simp only [scanDigits1, hc, if_true, dropDigits_append d r hd hr]

theorem scanInt_sound (s r : Bytes) (h : scanInt s = some r) :
    ∃ i : Bytes, IsInt i ∧ s = i ++ r := by
  cases s with
  | nil => simp [scanInt] at h
  | cons c t =>
    simp only [scanInt] at h
    by_cases h0 : c.val = 0x30
    · rw [if_pos h0] at h
      injection h with h
      have hc : c = (0x30 : Byte) := Fin.ext h0
      exact ⟨[(0x30 : Byte)], Or.inl rfl, by rw [hc, h]; rfl⟩
    · rw [if_neg h0] at h
      by_cases h1 : 0x31 ≤ c.val ∧ c.val ≤ 0x39
      · rw [if_pos h1] at h
        injection h with h
        obtain ⟨d, hd, ht⟩ := dropDigits_split t
        exact ⟨c :: d, Or.inr ⟨c, d, h1.1, h1.2, hd, rfl⟩, by rw [← h, List.cons_append, ← ht]⟩
      · rw [if_neg h1] at h
        exact absurd h (by simp)

theorem scanInt_complete (i r : Bytes) (hi : IsInt i)
    (hr : ∀ x t, r = x :: t → isDigit x = false) : scanInt (i ++ r) = some r := by
  rcases hi with hi | ⟨c, d, h1, h2, hd, hi⟩
  · subst hi
    show scanInt ((0x30 : Byte) :: r) = _
    simp only [scanInt]
    rw [if_pos (by decide)]
  · subst hi
    show scanInt (c :: (d ++ r)) = _
    simp only [scanInt]
    rw [if_neg (by omega), if_pos ⟨h1, h2⟩, dropDigits_append d r hd hr]

theorem scanFrac_sound (s r : Bytes) (h : scanFrac s = some r) :
    ∃ f : Bytes, IsFrac f ∧ s = f ++ r := by
  cases s with
  | nil =>
    simp only [scanFrac] at h
    injection h with h
    exact ⟨[], Or.inl rfl, by rw [← h]; rfl⟩
  | cons c t =>
    simp only [scanFrac] at h
    by_cases h0 : c.val = 0x2E
    · rw [if_pos h0] at h
      have hc : c = (0x2E : Byte) := Fin.ext h0
      obtain ⟨x, d, hx, hd, ht⟩ := scanDigits1_sound t r h
      exact ⟨(0x2E : Byte) :: x :: d, Or.inr ⟨x, d, hx, hd, rfl⟩, by rw [hc, ht]; rfl⟩
    · rw [if_neg h0] at h
      injection h with h
      exact ⟨[], Or.inl rfl, by rw [← h]; rfl⟩

theorem scanFrac_complete (f r : Bytes) (hf : IsFrac f)
    (hr : ∀ x t, r = x :: t → isDigit x = false)
    (hr2 : f = [] → ∀ x t, r = x :: t → x.val ≠ 0x2E) : scanFrac (f ++ r) = some r := by
  rcases hf with hf | ⟨c, d, hc, hd, hf⟩
  · subst hf
    cases r with
    | nil => rfl
    | cons x t =>
      show scanFrac (x :: t) = _
      simp only [scanFrac]
      rw [if_neg (hr2 rfl x t rfl)]
  · subst hf
    show scanFrac ((0x2E : Byte) :: (c :: (d ++ r))) = _
    simp only [scanFrac]
    rw [if_pos (by decide), scanDigits1_complete c d r hc hd hr]

theorem scanExp_sound (s r : Bytes) (h : scanExp s = some r) :
    ∃ e : Bytes, IsExp e ∧ s = e ++ r := by
  cases s with
  | nil =>
    simp only [scanExp] at h
    injection h with h
    exact ⟨[], Or.inl rfl, by rw [← h]; rfl⟩
  | cons c t =>
    simp only [scanExp] at h
    by_cases h0 : c.val = 0x65 ∨ c.val = 0x45
    · rw [if_pos h0] at h
      cases t with
      | nil => simp at h
      | cons d u =>
        simp only at h
        by_cases h1 : d.val = 0x2B ∨ d.val = 0x2D
        · rw [if_pos h1] at h
          obtain ⟨x, ds, hx, hds, hu⟩ := scanDigits1_sound u r h
          refine ⟨c :: ([d] ++ x :: ds), Or.inr ⟨c, [d], x, ds, h0, ?_, hx, hds, rfl⟩, ?_⟩
          · rcases h1 with h1 | h1
            · right; left
              have : d = (0x2B : Byte) := Fin.ext h1
              rw [this]
            · right; right
              have : d = (0x2D : Byte) := Fin.ext h1
              rw [this]
          · rw [hu]; rfl
        · rw [if_neg h1] at h
          obtain ⟨x, ds, hx, hds, hu⟩ := scanDigits1_sound (d :: u) r h
          exact ⟨c :: ([] ++ x :: ds), Or.inr ⟨c, [], x, ds, h0, Or.inl rfl, hx, hds, rfl⟩,
            by rw [hu]; rfl⟩
    · rw [if_neg h0] at h
      injection h with h
      exact ⟨[], Or.inl rfl, by rw [← h]; rfl⟩

theorem isDigit_not_sign (c : Byte) (h : isDigit c = true) : ¬ (c.val = 0x2B ∨ c.val = 0x2D) := by
  simp only [isDigit, decide_eq_true_eq] at h
  omega

theorem scanExp_complete (e r : Bytes) (he : IsExp e)
    (hr : ∀ x t, r = x :: t → isDigit x = false)
    (hr2 : e = [] → ∀ x t, r = x :: t → ¬ (x.val = 0x65 ∨ x.val = 0x45)) :
    scanExp (e ++ r) = some r := by
  rcases he with he | ⟨c, sign, x, d, hc, hs, hx, hd, he⟩
  · subst he
    cases r with
    | nil => rfl
    | cons y t =>
      show scanExp (y :: t) = _
      simp only [scanExp]
      rw [if_neg (hr2 rfl y t rfl)]
  · subst he
    rcases hs with hs | hs | hs <;> subst hs
    · show scanExp (c :: (x :: (d ++ r))) = _
      simp only [scanExp]
      rw [if_pos hc, if_neg (isDigit_not_sign x hx), scanDigits1_complete x d r hx hd hr]
    · show scanExp (c :: ((0x2B : Byte) :: (x :: (d ++ r)))) = _
      simp only [scanExp]
      rw [if_pos hc, if_pos (by decide), scanDigits1_complete x d r hx hd hr]
    · show scanExp (c :: ((0x2D : Byte) :: (x :: (d ++ r)))) = _
      simp only [scanExp]
      rw [if_pos hc, if_pos (by decide), scanDigits1_complete x d r hx hd hr]

theorem scanNumber_sound (s r : Bytes) (h : scanNumber s = some r) :
    ∃ v : Bytes, IsNumber v ∧ s = v ++ r := by
  unfold scanNumber at h
  simp only [Option.bind_eq_some] at h
  obtain ⟨s2, h1, s3, h2, h3⟩ := h
  obtain ⟨i, hi, e1⟩ := scanInt_sound _ _ h1
  obtain ⟨f, hf, e2⟩ := scanFrac_sound _ _ h2
  obtain ⟨e, he, e3⟩ := scanExp_sound _ _ h3
  cases s with
  | nil => simp [scanInt] at h1
  | cons c t =>
    simp only at e1
    by_cases hc : c.val = 0x2D
    · rw [if_pos hc] at e1
      have hc2 : c = (0x2D : Byte) := Fin.ext hc
      exact ⟨[(0x2D : Byte)] ++ (i ++ (f ++ e)),
        ⟨[(0x2D : Byte)], i, f, e, Or.inr rfl, hi, hf, he, rfl⟩,
        by rw [hc2, e1, e2, e3]; simp⟩
    · rw [if_neg hc] at e1
      exact ⟨[] ++ (i ++ (f ++ e)), ⟨[], i, f, e, Or.inl rfl, hi, hf, he, rfl⟩,
        by rw [e1, e2, e3]; simp⟩

theorem IsInt_head (i : Bytes) (hi : IsInt i) :
    ∃ (c : Byte) (t : Bytes), i = c :: t ∧ isDigit c = true := by
  rcases hi with hi | ⟨c, d, h1, h2, _, hi⟩
  · exact ⟨0x30, [], hi, by decide⟩
  · exact ⟨c, d, hi, by simp only [isDigit, decide_eq_true_eq]; omega⟩

theorem head_frac_exp (f e r : Bytes) (hf : IsFrac f) (he : IsExp e) (hr : NoNum r) :
    (∀ x t, f ++ (e ++ r) = x :: t → isDigit x = false) ∧
    (∀ x t, e ++ r = x :: t → isDigit x = false) ∧
    (∀ x t, e ++ r = x :: t → x.val ≠ 0x2E) := by
  have hE : (∀ x t, e ++ r = x :: t → isDigit x = false) ∧
      (∀ x t, e ++ r = x :: t → x.val ≠ 0x2E) := by
    rcases he with he | ⟨c, sign, y, d, hc, _, _, _, he⟩
    · subst he
      exact ⟨fun x t h => (hr x t h).1, fun x t h => (hr x t h).2.1⟩
    · subst he
      constructor
      · intro x t h
        injection h with h _
        subst h
        simp only [isDigit, decide_eq_false_iff_not]; omega
      · intro x t h
        injection h with h _
        subst h
        omega
  refine ⟨?_, hE.1, hE.2⟩
  rcases hf with hf | ⟨c, d, _, _, hf⟩
  · subst hf; exact hE.1
  · subst hf
    intro x t h
    injection h with h _
    subst h
    decide

theorem scanNumber_complete (v r : Bytes) (hv : IsNumber v) (hr : NoNum r) :
    scanNumber (v ++ r) = some r := by
  obtain ⟨sign, i, f, e, hs, hi, hf, he, hv⟩ := hv
  subst hv
  obtain ⟨h1, h2, h3⟩ := head_frac_exp f e r hf he hr
  obtain ⟨c, t, hic, hcd⟩ := IsInt_head i hi
  have hrest : (scanInt (i ++ (f ++ (e ++ r)))).bind (fun s2 => (scanFrac s2).bind scanExp) =
      some r := by
    rw [scanInt_complete i _ hi h1]
    simp only [Option.some_bind]
    rw [scanFrac_complete f _ hf h2 (fun _ => h3)]
    simp only [Option.some_bind]
    apply scanExp_complete e r he (fun x t h => (hr x t h).1)
    intro _ x t h
    have := hr x t h
    omega
  rcases hs with hs | hs <;> subst hs
  · have hne : c.val ≠ 0x2D := by
      simp only [isDigit, decide_eq_true_eq] at hcd
      omega
    simp only [List.nil_append, List.append_assoc]
    unfold scanNumber
    rw [hic] at hrest ⊢
    simp only [List.cons_append] at hrest ⊢
    rw [if_neg hne]
    exact hrest
  · simp only [List.append_assoc]
    show scanNumber ((0x2D : Byte) :: (i ++ (f ++ (e ++ r)))) = _
    unfold scanNumber
    simp only
    rw [if_pos (by decide)]
    exact hrest

end Client
namespace Client

/-! ## The scanner accepts only JSON values -/

theorem scanValue_succ (n depth : Nat) (c : Byte) (t : Bytes) :
    scanValue (n + 1) depth (c :: t) =
      if c.val = 0x7B then
        match depth with
        | 0 => none
        | d1 + 1 =>
          match skipSpace t with
          | d :: u => if d.val = 0x7D then some u else scanMembers (scanValue n d1) n (d :: u)
          | [] => none
      else if c.val = 0x5B then
        match depth with
        | 0 => none
        | d1 + 1 =>
          match skipSpace t with
          | d :: u => if d.val = 0x5D then some u else scanElems (scanValue n d1) n (d :: u)
          | [] => none
      else if c.val = 0x22 then scanString t
      else if c.val = 0x74 then scanWord (go "true") (c :: t)
      else if c.val = 0x66 then scanWord (go "false") (c :: t)
      else if c.val = 0x6E then scanWord (go "null") (c :: t)
      else scanNumber (c :: t) := by
  cases depth <;> rfl

theorem scanElems_succ (value : Bytes → Option Bytes) (k : Nat) (s : Bytes) :
    scanElems value (k + 1) s =
      match value s with
      | none => none
      | some r =>
        match skipSpace r with
        | c :: r1 =>
          if c.val = 0x2C then scanElems value k (skipSpace r1)
          else if c.val = 0x5D then some r1
          else none
        | [] => none := rfl

theorem scanMembers_succ (value : Bytes → Option Bytes) (k : Nat) (q : Byte) (s1 : Bytes) :
    scanMembers value (k + 1) (q :: s1) =
      if q.val = 0x22 then
        match scanString s1 with
        | none => none
        | some s2 =>
          match skipSpace s2 with
          | c :: s3 =>
            if c.val = 0x3A then
              match value (skipSpace s3) with
              | none => none
              | some r =>
                match skipSpace r with
                | d :: r1 =>
                  if d.val = 0x2C then scanMembers value k (skipSpace r1)
                  else if d.val = 0x7D then some r1
                  else none
                | [] => none
            else none
          | [] => none
      else none := rfl

theorem joinComma_cons (a : Bytes) (l : List Bytes) (hl : l ≠ []) :
    joinComma (a :: l) = a ++ (0x2C : Byte) :: joinComma l := by
  cases l with
  | nil => exact absurd rfl hl
  | cons b l => rfl

theorem scanWord_sound (w s rest : Bytes) (h : scanWord w s = some rest) : s = w ++ rest := by
  unfold scanWord at h
  by_cases hw : s.take w.length = w
  · rw [if_pos hw] at h
    injection h with h
    have := List.take_append_drop w.length s
    rw [hw, h] at this
    exact this.symm
  · rw [if_neg hw] at h
    exact absurd h (by simp)

theorem scanWord_complete (w rest : Bytes) : scanWord w (w ++ rest) = some rest := by
  unfold scanWord
  simp

theorem scanElems_sound (value : Bytes → Option Bytes) (P : Bytes → Prop)
    (hv : ∀ s rest, value s = some rest → ∃ v, P v ∧ s = v ++ rest) :
    ∀ (k : Nat) (x rest : Bytes), scanElems value k (skipSpace x) = some rest →
      ∃ es : List Elem, es ≠ [] ∧ (∀ e ∈ es, IsWs e.pre ∧ IsWs e.post) ∧
        (∀ e ∈ es, P e.val) ∧
        x = joinComma (es.map Elem.text) ++ (0x5D : Byte) :: rest := by
  intro k
  induction k with
  | zero => intro x rest h; simp [scanElems] at h
  | succ k ih =>
    intro x rest h
    rw [scanElems_succ] at h
    obtain ⟨w, hw, hx⟩ := skipSpace_split x
    cases hval : value (skipSpace x) with
    | none => rw [hval] at h; exact absurd h (by simp)
    | some r =>
      rw [hval] at h
      simp only at h
      obtain ⟨v, hvv, hsx⟩ := hv _ _ hval
      obtain ⟨w2, hw2, hr⟩ := skipSpace_split r
      cases hsr : skipSpace r with
      | nil => rw [hsr] at h; exact absurd h (by simp)
      | cons c r1 =>
        rw [hsr] at h hr
        simp only at h
        by_cases hc : c.val = 0x2C
        · rw [if_pos hc] at h
          have hc2 : c = (0x2C : Byte) := Fin.ext hc
          obtain ⟨es, hne, hl, hvs, hr1⟩ := ih r1 rest h
          refine ⟨⟨w, v, w2⟩ :: es, by simp, ?_, ?_, ?_⟩
          · intro e he
            rcases List.mem_cons.1 he with he | he
            · subst he; exact ⟨hw, hw2⟩
            · exact hl e he
          · intro e he
            rcases List.mem_cons.1 he with he | he
            · subst he; exact hvv
            · exact hvs e he
          · rw [List.map_cons, joinComma_cons _ _ (by simpa using hne)]
            rw [hx, hsx, hr, hc2, hr1]
            simp [Elem.text]
        · rw [if_neg hc] at h
          by_cases hd : c.val = 0x5D
          · rw [if_pos hd] at h
            injection h with h
            have hd2 : c = (0x5D : Byte) := Fin.ext hd
            refine ⟨[⟨w, v, w2⟩], by simp, ?_, ?_, ?_⟩
            · intro e he
              rw [List.mem_singleton.1 he]; exact ⟨hw, hw2⟩
            · intro e he
              rw [List.mem_singleton.1 he]; exact hvv
            · rw [hx, hsx, hr, hd2, h]
              simp [Elem.text, joinComma]
          · rw [if_neg hd] at h
            exact absurd h (by simp)

theorem scanMembers_sound (value : Bytes → Option Bytes) (P : Bytes → Prop)
    (hv : ∀ s rest, value s = some rest → ∃ v, P v ∧ s = v ++ rest) :
    ∀ (k : Nat) (x rest : Bytes), scanMembers value k (skipSpace x) = some rest →
      ∃ ms : List Member, ms ≠ [] ∧ (∀ m ∈ ms, m.Layout) ∧
        (∀ m ∈ ms, P m.val) ∧
        x = joinComma (ms.map Member.text) ++ (0x7D : Byte) :: rest := by
  intro k
  induction k with
  | zero => intro x rest h; simp [scanMembers] at h
  | succ k ih =>
    intro x rest h
    obtain ⟨w, hw, hx⟩ := skipSpace_split x
    cases hsx : skipSpace x with
    | nil => rw [hsx] at h; simp [scanMembers] at h
    | cons q s1 =>
      rw [hsx] at h hx
      rw [scanMembers_succ] at h
      by_cases hq : q.val = 0x22
      · rw [if_pos hq] at h
        have hq2 : q = (0x22 : Byte) := Fin.ext hq
        cases hstr : scanString s1 with
        | none => rw [hstr] at h; exact absurd h (by simp)
        | some s2 =>
          rw [hstr] at h
          simp only at h
          obtain ⟨key, hkey, hs1⟩ := scanString_sound _ _ hstr
          obtain ⟨m1, hm1, hs2⟩ := skipSpace_split s2
          cases hss2 : skipSpace s2 with
          | nil => rw [hss2] at h; exact absurd h (by simp)
          | cons c s3 =>
            rw [hss2] at h hs2
            simp only at h
            by_cases hc : c.val = 0x3A
            · rw [if_pos hc] at h
              have hc2 : c = (0x3A : Byte) := Fin.ext hc
              obtain ⟨m2, hm2, hs3⟩ := skipSpace_split s3
              cases hval : value (skipSpace s3) with
              | none => rw [hval] at h; exact absurd h (by simp)
              | some r =>
                rw [hval] at h
                simp only at h
                obtain ⟨v, hvv, hsv⟩ := hv _ _ hval
                obtain ⟨w2, hw2, hr⟩ := skipSpace_split r
                cases hsr : skipSpace r with
                | nil => rw [hsr] at h; exact absurd h (by simp)
                | cons d r1 =>
                  rw [hsr] at h hr
                  simp only at h
                  have hxx : x = w ++ ((0x22 : Byte) :: (key ++ ((0x22 : Byte) :: (m1 ++
                      ((0x3A : Byte) :: (m2 ++ (v ++ (w2 ++ d :: r1)))))))) := by
                    rw [hx, hq2, hs1, hs2, hc2, hs3, hsv, hr]
                  by_cases hd : d.val = 0x2C
                  · rw [if_pos hd] at h
                    have hd2 : d = (0x2C : Byte) := Fin.ext hd
                    obtain ⟨ms, hne, hl, hvs, hr1⟩ := ih r1 rest h
                    refine ⟨⟨w, key, m1, m2, v, w2⟩ :: ms, by simp, ?_, ?_, ?_⟩
                    · intro m hm
                      rcases List.mem_cons.1 hm with hm | hm
                      · subst hm; exact ⟨hw, hkey, hm1, hm2, hw2⟩
                      · exact hl m hm
                    · intro m hm
                      rcases List.mem_cons.1 hm with hm | hm
                      · subst hm; exact hvv
                      · exact hvs m hm
                    · rw [List.map_cons, joinComma_cons _ _ (by simpa using hne)]
                      rw [hxx, hd2, hr1]
                      simp [Member.text]
                  · rw [if_neg hd] at h
                    by_cases he : d.val = 0x7D
                    · rw [if_pos he] at h
                      injection h with h
                      have he2 : d = (0x7D : Byte) := Fin.ext he
                      refine ⟨[⟨w, key, m1, m2, v, w2⟩], by simp, ?_, ?_, ?_⟩
                      · intro m hm
                        rw [List.mem_singleton.1 hm]; exact ⟨hw, hkey, hm1, hm2, hw2⟩
                      · intro m hm
                        rw [List.mem_singleton.1 hm]; exact hvv
                      · rw [hxx, he2, h]
                        simp [Member.text, joinComma]
                    · rw [if_neg he] at h
                      exact absurd h (by simp)
            · rw [if_neg hc] at h
              exact absurd h (by simp)
      · rw [if_neg hq] at h
        exact absurd h (by simp)

theorem IsValueAt.toIsValue {d : Nat} {v : Bytes} (h : IsValueAt d v) : IsValue v := by
  induction h with
  | null _ => exact IsValue.null
  | true _ => exact IsValue.true
  | false _ => exact IsValue.false
  | number _ s hs => exact IsValue.number s hs
  | string _ s hs => exact IsValue.string s hs
  | emptyArray _ w hw => exact IsValue.emptyArray w hw
  | array _ es hne hl _ ih => exact IsValue.array es hne hl ih
  | emptyObject _ w hw => exact IsValue.emptyObject w hw
  | object _ ms hne hl _ ih => exact IsValue.object ms hne hl ih

theorem scanValue_sound : ∀ (n depth : Nat) (s rest : Bytes),
    scanValue n depth s = some rest → ∃ v, IsValueAt depth v ∧ s = v ++ rest := by
  intro n
  induction n with
  | zero => intro depth s rest h; simp [scanValue] at h
  | succ n ih =>
    intro depth s rest h
    cases s with
    | nil => simp [scanValue] at h
    | cons c t =>
      rw [scanValue_succ] at h
      by_cases h1 : c.val = 0x7B
      · rw [if_pos h1] at h
        have hc : c = (0x7B : Byte) := Fin.ext h1
        cases depth with
        | zero => exact absurd h (by simp)
        | succ d1 =>
          simp only at h
          obtain ⟨w, hw, ht⟩ := skipSpace_split t
          cases hst : skipSpace t with
          | nil => rw [hst] at h; exact absurd h (by simp)
          | cons d u =>
            rw [hst] at h
            simp only at h
            by_cases hd : d.val = 0x7D
            · rw [if_pos hd] at h
              injection h with h
              have hd2 : d = (0x7D : Byte) := Fin.ext hd
              refine ⟨_, IsValueAt.emptyObject d1 w hw, ?_⟩
              rw [hc, ht, hst, hd2, h]; simp
            · rw [if_neg hd, ← hst] at h
              obtain ⟨ms, hne, hl, hvs, hx⟩ := scanMembers_sound _ _ (ih d1) n t rest h
              refine ⟨_, IsValueAt.object d1 ms hne hl hvs, ?_⟩
              rw [hc, hx]; simp
      · rw [if_neg h1] at h
        by_cases h2 : c.val = 0x5B
        · rw [if_pos h2] at h
          have hc : c = (0x5B : Byte) := Fin.ext h2
          cases depth with
          | zero => exact absurd h (by simp)
          | succ d1 =>
            simp only at h
            obtain ⟨w, hw, ht⟩ := skipSpace_split t
            cases hst : skipSpace t with
            | nil => rw [hst] at h; exact absurd h (by simp)
            | cons d u =>
              rw [hst] at h
              simp only at h
              by_cases hd : d.val = 0x5D
              · rw [if_pos hd] at h
                injection h with h
                have hd2 : d = (0x5D : Byte) := Fin.ext hd
                refine ⟨_, IsValueAt.emptyArray d1 w hw, ?_⟩
                rw [hc, ht, hst, hd2, h]; simp
              · rw [if_neg hd, ← hst] at h
                obtain ⟨es, hne, hl, hvs, hx⟩ := scanElems_sound _ _ (ih d1) n t rest h
                refine ⟨_, IsValueAt.array d1 es hne hl hvs, ?_⟩
                rw [hc, hx]; simp
        · rw [if_neg h2] at h
          by_cases h3 : c.val = 0x22
          · rw [if_pos h3] at h
            have hc : c = (0x22 : Byte) := Fin.ext h3
            obtain ⟨b, hb, hs⟩ := scanString_sound _ _ h
            refine ⟨_, IsValueAt.string depth b hb, ?_⟩
            rw [hc, hs]; simp
          · rw [if_neg h3] at h
            by_cases h4 : c.val = 0x74
            · rw [if_pos h4] at h
              exact ⟨_, IsValueAt.true depth, scanWord_sound _ _ _ h⟩
            · rw [if_neg h4] at h
              by_cases h5 : c.val = 0x66
              · rw [if_pos h5] at h
                exact ⟨_, IsValueAt.false depth, scanWord_sound _ _ _ h⟩
              · rw [if_neg h5] at h
                by_cases h6 : c.val = 0x6E
                · rw [if_pos h6] at h
                  exact ⟨_, IsValueAt.null depth, scanWord_sound _ _ _ h⟩
                · rw [if_neg h6] at h
                  obtain ⟨v, hv, hs⟩ := scanNumber_sound _ _ h
                  exact ⟨v, IsValueAt.number depth v hv, hs⟩

/-- The syntax check accepts only JSON texts. -/
theorem checkValid_sound (body : Bytes) (h : checkValid body = true) : IsJSON body := by
  unfold checkValid at h
  obtain ⟨w, hw, hb⟩ := skipSpace_split body
  cases hs : scanValue (body.length + 1) maxNestingDepth (skipSpace body) with
  | none => rw [hs] at h; exact absurd h (by simp)
  | some rest =>
    rw [hs] at h
    simp only [decide_eq_true_eq] at h
    obtain ⟨v, hv, hsv⟩ := scanValue_sound _ _ _ _ hs
    refine ⟨w, v, rest, hw, hv.toIsValue, (skipSpace_eq_nil_iff rest).1 h, ?_⟩
    rw [← hsv]; exact hb

end Client
namespace Client

/-! ## The scanner accepts every JSON value -/

theorem IsValue_head (v : Bytes) (h : IsValue v) :
    ∃ (c : Byte) (t : Bytes), v = c :: t ∧ isSpace c = false ∧ c.val ≠ 0x5D ∧
      c.val ≠ 0x7D := by
  cases h with
  | null => exact ⟨0x6E, _, rfl, by decide, by decide, by decide⟩
  | true => exact ⟨0x74, _, rfl, by decide, by decide, by decide⟩
  | false => exact ⟨0x66, _, rfl, by decide, by decide, by decide⟩
  | number s hn =>
    obtain ⟨sign, i, f, e, hs, hi, _, _, hv⟩ := hn
    obtain ⟨c, t, hic, hcd⟩ := IsInt_head i hi
    simp only [isDigit, decide_eq_true_eq] at hcd
    rcases hs with hs | hs
    · refine ⟨c, t ++ (f ++ e), by rw [hv, hs, hic]; rfl, ?_, by omega, by omega⟩
      simp only [isSpace, decide_eq_false_iff_not]; omega
    · exact ⟨0x2D, i ++ (f ++ e), by rw [hv, hs]; rfl, by decide, by decide, by decide⟩
  | string s _ => exact ⟨0x22, _, rfl, by decide, by decide, by decide⟩
  | emptyArray w _ => exact ⟨0x5B, _, rfl, by decide, by decide, by decide⟩
  | array es _ _ _ => exact ⟨0x5B, _, rfl, by decide, by decide, by decide⟩
  | emptyObject w _ => exact ⟨0x7B, _, rfl, by decide, by decide, by decide⟩
  | object ms _ _ _ => exact ⟨0x7B, _, rfl, by decide, by decide, by decide⟩

theorem Follow_nil : Follow [] := fun _ _ h => nomatch h

theorem Follow_cons (c : Byte) (t : Bytes)
    (h : isSpace c = true ∨ c.val = 0x2C ∨ c.val = 0x5D ∨ c.val = 0x7D) : Follow (c :: t) := by
  intro d u hd
  injection hd with h1 _
  rw [← h1]; exact h

theorem Follow_ws_append (w r : Bytes) (hw : IsWs w) (hr : Follow r) : Follow (w ++ r) := by
  cases w with
  | nil => exact hr
  | cons c w => exact Follow_cons c _ (Or.inl (hw c (by simp)))

theorem Follow_of_IsWs (w : Bytes) (hw : IsWs w) : Follow w := by
  have := Follow_ws_append w [] hw Follow_nil
  rwa [List.append_nil] at this

theorem skipSpace_ws_cons (w : Bytes) (c : Byte) (t : Bytes) (hw : IsWs w)
    (hc : isSpace c = false) : skipSpace (w ++ c :: t) = c :: t := by
  rw [skipSpace_ws_append w _ hw, skipSpace_cons_of_not_space c t hc]

theorem length_le_joinComma (l : List Bytes) (h : ∀ a ∈ l, a ≠ []) :
    l.length ≤ (joinComma l).length := by
  induction l with
  | nil => simp
  | cons a l ih =>
    cases l with
    | nil =>
      have := List.length_pos.2 (h a (by simp))
      simp [joinComma]; omega
    | cons b l =>
      have := ih (fun x hx => h x (List.mem_cons_of_mem _ hx))
      simp only [joinComma, List.length_cons, List.length_append] at this ⊢
      omega

theorem mem_length_le_joinComma (l : List Bytes) (a : Bytes) (h : a ∈ l) :
    a.length ≤ (joinComma l).length := by
  induction l with
  | nil => simp at h
  | cons b l ih =>
    cases l with
    | nil =>
      simp only [List.mem_singleton] at h
      subst h; simp [joinComma]
    | cons c l =>
      simp only [joinComma, List.length_cons, List.length_append]
      rcases List.mem_cons.1 h with h | h
      · subst h; omega
      · have := ih h
        simp only [joinComma] at this
        omega

theorem scanElems_complete (value : Bytes → Option Bytes) (rest : Bytes) :
    ∀ (es : List Elem), es ≠ [] → (∀ e ∈ es, IsWs e.pre ∧ IsWs e.post) →
      (∀ e ∈ es, IsValue e.val) →
      (∀ e ∈ es, ∀ r, Follow r → value (e.val ++ r) = some r) →
      ∀ k, es.length ≤ k →
      scanElems value k (skipSpace (joinComma (es.map Elem.text) ++ (0x5D : Byte) :: rest)) =
        some rest := by
  intro es
  induction es with
  | nil => intro h; exact absurd rfl h
  | cons e es ih =>
    intro _ hl hval hv k hk
    obtain ⟨c, t, hct, hcs, _, _⟩ := IsValue_head e.val (hval e (by simp))
    cases k with
    | zero => simp at hk
    | succ k =>
      rw [scanElems_succ]
      by_cases hes : es = []
      · subst hes
        have h1 : skipSpace (joinComma (List.map Elem.text [e]) ++ (0x5D : Byte) :: rest) =
            e.val ++ (e.post ++ (0x5D : Byte) :: rest) := by
          simp only [List.map, joinComma, Elem.text, List.append_assoc]
          rw [hct, List.cons_append, skipSpace_ws_cons _ _ _ (hl e (by simp)).1 hcs]
        rw [h1, hv e (by simp) _ (Follow_ws_append _ _ (hl e (by simp)).2
          (Follow_cons _ _ (Or.inr (Or.inr (Or.inl rfl)))))]
        simp only
        rw [skipSpace_ws_cons _ _ _ (hl e (by simp)).2 (by decide)]
        simp only
        rw [if_neg (by decide), if_pos (by decide)]
      · have h1 : skipSpace (joinComma (List.map Elem.text (e :: es)) ++ (0x5D : Byte) :: rest) =
            e.val ++ (e.post ++ (0x2C : Byte) ::
              (joinComma (es.map Elem.text) ++ (0x5D : Byte) :: rest)) := by
          rw [List.map_cons, joinComma_cons _ _ (by simpa using hes)]
          simp only [Elem.text, List.append_assoc, List.cons_append]
          rw [hct, List.cons_append, skipSpace_ws_cons _ _ _ (hl e (by simp)).1 hcs]
        rw [h1, hv e (by simp) _ (Follow_ws_append _ _ (hl e (by simp)).2
          (Follow_cons _ _ (Or.inr (Or.inl rfl))))]
        simp only
        rw [skipSpace_ws_cons _ _ _ (hl e (by simp)).2 (by decide)]
        simp only
        rw [if_pos (by decide)]
        exact ih hes (fun x hx => hl x (List.mem_cons_of_mem _ hx))
          (fun x hx => hval x (List.mem_cons_of_mem _ hx))
          (fun x hx => hv x (List.mem_cons_of_mem _ hx)) k (by simp at hk; omega)

theorem scanMembers_complete (value : Bytes → Option Bytes) (rest : Bytes) :
    ∀ (ms : List Member), ms ≠ [] → (∀ m ∈ ms, m.Layout) →
      (∀ m ∈ ms, IsValue m.val) →
      (∀ m ∈ ms, ∀ r, Follow r → value (m.val ++ r) = some r) →
      ∀ k, ms.length ≤ k →
      scanMembers value k
          (skipSpace (joinComma (ms.map Member.text) ++ (0x7D : Byte) :: rest)) =
        some rest := by
  intro ms
  induction ms with
  | nil => intro h; exact absurd rfl h
  | cons m ms ih =>
    intro _ hl hval hv k hk
    obtain ⟨c, t, hct, hcs, _, _⟩ := IsValue_head m.val (hval m (by simp))
    obtain ⟨l1, l2, l3, l4, l5⟩ := hl m (by simp)
    cases k with
    | zero => simp at hk
    | succ k =>
      have step : ∀ (tail : Bytes) (d : Byte), isSpace d = false →
          (d.val = 0x2C ∨ d.val = 0x7D) →
          scanMembers value (k + 1) (skipSpace (m.text ++ d :: tail)) =
            if d.val = 0x2C then scanMembers value k (skipSpace tail)
            else if d.val = 0x7D then some tail else none := by
        intro tail d hd hd2
        have h1 : skipSpace (m.text ++ d :: tail) =
            (0x22 : Byte) :: (m.key ++ (0x22 : Byte) :: (m.mid1 ++ (0x3A : Byte) ::
              (m.mid2 ++ (m.val ++ (m.post ++ d :: tail))))) := by
          simp only [Member.text, List.append_assoc, List.cons_append]
          rw [skipSpace_ws_cons _ _ _ l1 (by decide)]
        rw [h1, scanMembers_succ, if_pos (by decide), scanString_complete _ _ l2]
        simp only
        rw [skipSpace_ws_cons _ _ _ l3 (by decide)]
        simp only
        rw [if_pos (by decide)]
        have h2 : skipSpace (m.mid2 ++ (m.val ++ (m.post ++ d :: tail))) =
            m.val ++ (m.post ++ d :: tail) := by
          rw [hct, List.cons_append, skipSpace_ws_cons _ _ _ l4 hcs]
        rw [h2, hv m (by simp) _ (Follow_ws_append _ _ l5 (Follow_cons _ _ (by
          rcases hd2 with h | h
          · exact Or.inr (Or.inl h)
          · exact Or.inr (Or.inr (Or.inr h)))))]
        simp only
        rw [skipSpace_ws_cons _ _ _ l5 hd]
      by_cases hms : ms = []
      · subst hms
        have := step rest (0x7D : Byte) (by decide) (Or.inr (by decide))
        simp only [List.map, joinComma]
        rw [this, if_neg (by decide), if_pos (by decide)]
      · rw [List.map_cons, joinComma_cons _ _ (by simpa using hms)]
        have := step (joinComma (ms.map Member.text) ++ (0x7D : Byte) :: rest) (0x2C : Byte)
          (by decide) (Or.inl (by decide))
        rw [List.append_assoc, List.cons_append, this, if_pos (by decide)]
        exact ih hms (fun x hx => hl x (List.mem_cons_of_mem _ hx))
          (fun x hx => hval x (List.mem_cons_of_mem _ hx))
          (fun x hx => hv x (List.mem_cons_of_mem _ hx)) k (by simp at hk; omega)

theorem IsValue_ne_nil (v : Bytes) (h : IsValue v) : v ≠ [] := by
  obtain ⟨c, t, hv, _⟩ := IsValue_head v h
  rw [hv]; simp

theorem Elem_val_le_text (e : Elem) : e.val.length ≤ e.text.length := by
  simp [Elem.text]; omega

theorem Member_val_le_text (m : Member) : m.val.length ≤ m.text.length := by
  simp [Member.text]; omega

theorem Elem_text_ne_nil (e : Elem) (h : IsValue e.val) : e.text ≠ [] := by
  intro h2
  have h3 := Elem_val_le_text e
  rw [h2] at h3
  exact IsValue_ne_nil _ h (List.length_eq_zero.1 (Nat.le_zero.1 h3))

theorem Member_text_ne_nil (m : Member) : m.text ≠ [] := by
  intro h
  have : m.text.length = 0 := by rw [h]; rfl
  simp [Member.text] at this

theorem scanValue_complete (depth : Nat) (v : Bytes) (hv : IsValueAt depth v) :
    ∀ (n : Nat) (rest : Bytes), v.length ≤ n → Follow rest →
      scanValue n depth (v ++ rest) = some rest := by
  induction hv with
  | null dd =>
    intro n rest hn _
    cases n with
    | zero => exact absurd hn (by decide)
    | succ n =>
      show scanValue (n + 1) _ ((0x6E : Byte) :: ([0x75, 0x6C, 0x6C] ++ rest)) = _
      rw [scanValue_succ, if_neg (by decide), if_neg (by decide), if_neg (by decide),
        if_neg (by decide), if_neg (by decide), if_pos (by decide)]
      exact scanWord_complete (go "null") rest
  | true dd =>
    intro n rest hn _
    cases n with
    | zero => exact absurd hn (by decide)
    | succ n =>
      show scanValue (n + 1) _ ((0x74 : Byte) :: ([0x72, 0x75, 0x65] ++ rest)) = _
      rw [scanValue_succ, if_neg (by decide), if_neg (by decide), if_neg (by decide),
        if_pos (by decide)]
      exact scanWord_complete (go "true") rest
  | false dd =>
    intro n rest hn _
    cases n with
    | zero => exact absurd hn (by decide)
    | succ n =>
      show scanValue (n + 1) _ ((0x66 : Byte) :: ([0x61, 0x6C, 0x73, 0x65] ++ rest)) = _
      rw [scanValue_succ, if_neg (by decide), if_neg (by decide), if_neg (by decide),
        if_neg (by decide), if_pos (by decide)]
      exact scanWord_complete (go "false") rest
  | number dd s hs =>
    intro n rest hn hr
    obtain ⟨sign, i, f, e, hsg, hi, _, _, hv⟩ := id hs
    obtain ⟨c, t, hic, hcd⟩ := IsInt_head i hi
    simp only [isDigit, decide_eq_true_eq] at hcd
    have hhead : ∃ (d : Byte) (u : Bytes), s = d :: u ∧
        ((0x30 ≤ d.val ∧ d.val ≤ 0x39) ∨ d.val = 0x2D) := by
      rcases hsg with h | h
      · exact ⟨c, t ++ (f ++ e), by rw [hv, h, hic]; rfl, Or.inl hcd⟩
      · exact ⟨0x2D, i ++ (f ++ e), by rw [hv, h]; rfl, Or.inr (by decide)⟩
    obtain ⟨d, u, hdu, hd⟩ := hhead
    cases n with
    | zero => rw [hdu] at hn; simp at hn
    | succ n =>
      have := scanNumber_complete s rest hs (NoNum_of_Follow hr)
      rw [hdu] at this ⊢
      rw [List.cons_append] at this ⊢
      rw [scanValue_succ, if_neg (by omega), if_neg (by omega), if_neg (by omega),
        if_neg (by omega), if_neg (by omega), if_neg (by omega)]
      exact this
  | string dd s hs =>
    intro n rest hn _
    cases n with
    | zero => simp at hn
    | succ n =>
      show scanValue (n + 1) _ ((0x22 : Byte) :: ((s ++ [(0x22 : Byte)]) ++ rest)) = _
      rw [scanValue_succ, if_neg (by decide), if_neg (by decide), if_pos (by decide)]
      rw [List.append_assoc]
      exact scanString_complete s rest hs
  | emptyArray dd w hw =>
    intro n rest hn _
    cases n with
    | zero => simp at hn
    | succ n =>
      show scanValue (n + 1) _ ((0x5B : Byte) :: ((w ++ [(0x5D : Byte)]) ++ rest)) = _
      rw [scanValue_succ, if_neg (by decide), if_pos (by decide), List.append_assoc]
      show (match skipSpace (w ++ (0x5D : Byte) :: rest) with
        | d :: u => if d.val = 0x5D then some u else scanElems (scanValue n dd) n (d :: u)
        | [] => none) = _
      rw [skipSpace_ws_cons _ _ _ hw (by decide)]
      simp only
      rw [if_pos (by decide)]
  | emptyObject dd w hw =>
    intro n rest hn _
    cases n with
    | zero => simp at hn
    | succ n =>
      show scanValue (n + 1) _ ((0x7B : Byte) :: ((w ++ [(0x7D : Byte)]) ++ rest)) = _
      rw [scanValue_succ, if_pos (by decide), List.append_assoc]
      show (match skipSpace (w ++ (0x7D : Byte) :: rest) with
        | d :: u => if d.val = 0x7D then some u else scanMembers (scanValue n dd) n (d :: u)
        | [] => none) = _
      rw [skipSpace_ws_cons _ _ _ hw (by decide)]
      simp only
      rw [if_pos (by decide)]
  | array dd es hne hl hval ih =>
    intro n rest hn _
    cases n with
    | zero => simp at hn
    | succ n =>
      have hlen : (joinComma (es.map Elem.text)).length + 1 ≤ n := by
        simp only [List.length_cons, List.length_append, List.length_singleton] at hn
        omega
      have hfuel : ∀ e ∈ es, e.val.length ≤ n := by
        intro e he
        have h1 := mem_length_le_joinComma (es.map Elem.text) e.text (List.mem_map_of_mem _ he)
        have h2 := Elem_val_le_text e
        omega
      have hcount : es.length ≤ n := by
        have := length_le_joinComma (es.map Elem.text) (by
          intro a ha
          obtain ⟨e, he, rfl⟩ := List.mem_map.1 ha
          exact Elem_text_ne_nil e (hval e he).toIsValue)
        simp only [List.length_map] at this
        omega
      have hval2 : ∀ e ∈ es, IsValue e.val := fun e he => (hval e he).toIsValue
      have hmain := scanElems_complete (scanValue n dd) rest es hne hl hval2
        (fun e he r hr => ih e he n r (hfuel e he) hr) n hcount
      obtain ⟨e0, es0, hes⟩ := List.exists_cons_of_ne_nil hne
      obtain ⟨c, t, hct, hcs, hc1, _⟩ :=
        IsValue_head e0.val (hval e0 (by rw [hes]; simp)).toIsValue
      have hsk : ∃ u, skipSpace (joinComma (es.map Elem.text) ++ (0x5D : Byte) :: rest) =
          c :: u := by
        rw [hes, List.map_cons]
        by_cases h0 : es0 = []
        · subst h0
          simp only [List.map, joinComma, Elem.text, List.append_assoc]
          rw [hct, List.cons_append,
            skipSpace_ws_cons _ _ _ (hl e0 (by rw [hes]; simp)).1 hcs]
          exact ⟨_, rfl⟩
        · rw [joinComma_cons _ _ (by simpa using h0)]
          simp only [Elem.text, List.append_assoc]
          rw [hct, List.cons_append,
            skipSpace_ws_cons _ _ _ (hl e0 (by rw [hes]; simp)).1 hcs]
          exact ⟨_, rfl⟩
      obtain ⟨u, hu⟩ := hsk
      show scanValue (n + 1) _ ((0x5B : Byte) ::
        ((joinComma (es.map Elem.text) ++ [(0x5D : Byte)]) ++ rest)) = _
      rw [scanValue_succ, if_neg (by decide), if_pos (by decide), List.append_assoc]
      show (match skipSpace (joinComma (es.map Elem.text) ++ (0x5D : Byte) :: rest) with
        | d :: u => if d.val = 0x5D then some u else scanElems (scanValue n dd) n (d :: u)
        | [] => none) = _
      rw [hu] at hmain ⊢
      simp only
      rw [if_neg hc1]
      exact hmain
  | object dd ms hne hl hval ih =>
    intro n rest hn _
    cases n with
    | zero => simp at hn
    | succ n =>
      have hlen : (joinComma (ms.map Member.text)).length + 1 ≤ n := by
        simp only [List.length_cons, List.length_append, List.length_singleton] at hn
        omega
      have hfuel : ∀ m ∈ ms, m.val.length ≤ n := by
        intro m hm
        have h1 := mem_length_le_joinComma (ms.map Member.text) m.text
          (List.mem_map_of_mem _ hm)
        have h2 := Member_val_le_text m
        omega
      have hcount : ms.length ≤ n := by
        have := length_le_joinComma (ms.map Member.text) (by
          intro a ha
          obtain ⟨m, _, rfl⟩ := List.mem_map.1 ha
          exact Member_text_ne_nil m)
        simp only [List.length_map] at this
        omega
      have hval2 : ∀ m ∈ ms, IsValue m.val := fun m hm => (hval m hm).toIsValue
      have hmain := scanMembers_complete (scanValue n dd) rest ms hne hl hval2
        (fun m hm r hr => ih m hm n r (hfuel m hm) hr) n hcount
      obtain ⟨m0, ms0, hms⟩ := List.exists_cons_of_ne_nil hne
      have hsk : ∃ u, skipSpace (joinComma (ms.map Member.text) ++ (0x7D : Byte) :: rest) =
          (0x22 : Byte) :: u := by
        rw [hms, List.map_cons]
        by_cases h0 : ms0 = []
        · subst h0
          simp only [List.map, joinComma, Member.text, List.append_assoc, List.cons_append]
          rw [skipSpace_ws_cons _ _ _ (hl m0 (by rw [hms]; simp)).1 (by decide)]
          exact ⟨_, rfl⟩
        · rw [joinComma_cons _ _ (by simpa using h0)]
          simp only [Member.text, List.append_assoc, List.cons_append]
          rw [skipSpace_ws_cons _ _ _ (hl m0 (by rw [hms]; simp)).1 (by decide)]
          exact ⟨_, rfl⟩
      obtain ⟨u, hu⟩ := hsk
      show scanValue (n + 1) _ ((0x7B : Byte) ::
        ((joinComma (ms.map Member.text) ++ [(0x7D : Byte)]) ++ rest)) = _
      rw [scanValue_succ, if_pos (by decide), List.append_assoc]
      show (match skipSpace (joinComma (ms.map Member.text) ++ (0x7D : Byte) :: rest) with
        | d :: u => if d.val = 0x7D then some u else scanMembers (scanValue n dd) n (d :: u)
        | [] => none) = _
      rw [hu] at hmain ⊢
      simp only
      rw [if_neg (by decide)]
      exact hmain

/-- The syntax check accepts every JSON text whose value is nested at most
`maxNestingDepth` levels deep. -/
theorem checkValid_complete (w1 v w2 : Bytes) (hw1 : IsWs w1)
    (hv : IsValueAt maxNestingDepth v) (hw2 : IsWs w2) :
    checkValid (w1 ++ (v ++ w2)) = true := by
  obtain ⟨c, t, hct, hcs, _, _⟩ := IsValue_head v hv.toIsValue
  have h1 : skipSpace (w1 ++ (v ++ w2)) = v ++ w2 := by
    rw [hct, List.cons_append, skipSpace_ws_cons _ _ _ hw1 hcs]
  have h2 : v.length ≤ (w1 ++ (v ++ w2)).length + 1 := by
    simp only [List.length_append]; omega
  unfold checkValid
  rw [h1, scanValue_complete _ v hv _ w2 h2 (Follow_of_IsWs w2 hw2)]
  simp only [decide_eq_true_eq]
  exact (skipSpace_eq_nil_iff w2).2 hw2

/-! ## Nesting depth -/

theorem IsValueAt.succ {d : Nat} {v : Bytes} (h : IsValueAt d v) : IsValueAt (d + 1) v := by
  induction h with
  | null _ => exact IsValueAt.null _
  | true _ => exact IsValueAt.true _
  | false _ => exact IsValueAt.false _
  | number _ s hs => exact IsValueAt.number _ s hs
  | string _ s hs => exact IsValueAt.string _ s hs
  | emptyArray _ w hw => exact IsValueAt.emptyArray _ w hw
  | array _ es hne hl _ ih => exact IsValueAt.array _ es hne hl ih
  | emptyObject _ w hw => exact IsValueAt.emptyObject _ w hw
  | object _ ms hne hl _ ih => exact IsValueAt.object _ ms hne hl ih

theorem IsValueAt.mono {d e : Nat} {v : Bytes} (h : IsValueAt d v) (hle : d ≤ e) :
    IsValueAt e v := by
  induction hle with
  | refl => exact h
  | step _ ih => exact ih.succ

theorem common_depth {α : Type} (f : α → Bytes) (l : List α)
    (h : ∀ a ∈ l, ∃ d, IsValueAt d (f a)) : ∃ d, ∀ a ∈ l, IsValueAt d (f a) := by
  induction l with
  | nil => exact ⟨0, fun _ ha => nomatch ha⟩
  | cons a l ih =>
    obtain ⟨d1, h1⟩ := h a (by simp)
    obtain ⟨d2, h2⟩ := ih (fun x hx => h x (List.mem_cons_of_mem _ hx))
    refine ⟨max d1 d2, ?_⟩
    intro x hx
    rcases List.mem_cons.1 hx with hx | hx
    · rw [hx]; exact h1.mono (Nat.le_max_left _ _)
    · exact (h2 x hx).mono (Nat.le_max_right _ _)

/-- Every JSON value has some nesting depth. -/
theorem IsValue.exists_depth {v : Bytes} (h : IsValue v) : ∃ d, IsValueAt d v := by
  induction h with
  | null => exact ⟨0, IsValueAt.null 0⟩
  | true => exact ⟨0, IsValueAt.true 0⟩
  | false => exact ⟨0, IsValueAt.false 0⟩
  | number s hs => exact ⟨0, IsValueAt.number 0 s hs⟩
  | string s hs => exact ⟨0, IsValueAt.string 0 s hs⟩
  | emptyArray w hw => exact ⟨1, IsValueAt.emptyArray 0 w hw⟩
  | array es hne hl _ ih =>
    obtain ⟨d, hd⟩ := common_depth Elem.val es ih
    exact ⟨d + 1, IsValueAt.array d es hne hl hd⟩
  | emptyObject w hw => exact ⟨1, IsValueAt.emptyObject 0 w hw⟩
  | object ms hne hl _ ih =>
    obtain ⟨d, hd⟩ := common_depth Member.val ms ih
    exact ⟨d + 1, IsValueAt.object d ms hne hl hd⟩

/-- A JSON text is accepted by the scanner once enough nesting levels are
allowed. -/
theorem IsJSON.scanned {body : Bytes} (h : IsJSON body) :
    ∃ (d : Nat) (rest : Bytes),
      scanValue (body.length + 1) d (skipSpace body) = some rest ∧ skipSpace rest = [] := by
  obtain ⟨w1, v, w2, hw1, hv, hw2, hb⟩ := h
  obtain ⟨d, hd⟩ := hv.exists_depth
  obtain ⟨c, t, hct, hcs, _, _⟩ := IsValue_head v hv
  have h1 : skipSpace body = v ++ w2 := by
    rw [hb, hct, List.cons_append, skipSpace_ws_cons _ _ _ hw1 hcs]
  have h2 : v.length ≤ body.length + 1 := by
    rw [hb]; simp only [List.length_append]; omega
  exact ⟨d, w2, by rw [h1]; exact scanValue_complete d v hd _ w2 h2 (Follow_of_IsWs w2 hw2),
    (skipSpace_eq_nil_iff w2).2 hw2⟩

/-- Arrays nested `depth + 1` deep are rejected when only `depth` levels are
allowed. -/
theorem scanValue_too_deep (depth : Nat) : ∀ (n : Nat) (rest : Bytes),
    scanValue n depth (List.replicate (depth + 1) (0x5B : Byte) ++ rest) = none := by
  induction depth with
  | zero =>
    intro n rest
    cases n with
    | zero => rfl
    | succ n =>
      show scanValue (n + 1) 0 ((0x5B : Byte) :: rest) = none
      rw [scanValue_succ, if_neg (by decide), if_pos (by decide)]
  | succ d ih =>
    intro n rest
    cases n with
    | zero => rfl
    | succ n =>
      show scanValue (n + 1) (d + 1)
        ((0x5B : Byte) :: (List.replicate (d + 1) (0x5B : Byte) ++ rest)) = none
      rw [scanValue_succ, if_neg (by decide), if_pos (by decide)]
      simp only
      have hsk : skipSpace (List.replicate (d + 1) (0x5B : Byte) ++ rest) =
          (0x5B : Byte) :: (List.replicate d (0x5B : Byte) ++ rest) :=
        skipSpace_cons_of_not_space _ _ (by decide)
      rw [hsk]
      simp only
      rw [if_neg (by decide)]
      cases n with
      | zero => rfl
      | succ k =>
        rw [scanElems_succ]
        have := ih (k + 1) rest
        rw [List.replicate_succ, List.cons_append] at this
        rw [this]

theorem IsValueAt_nestedArrays (n : Nat) : IsValueAt (n + 1) (nestedArrays (n + 1)) := by
  induction n with
  | zero => exact IsValueAt.emptyArray 0 [] IsWs_nil
  | succ n ih =>
    have h := IsValueAt.array (n + 1) [⟨[], nestedArrays (n + 1), []⟩] (by simp)
      (by intro e he; rw [List.mem_singleton.1 he]; exact ⟨IsWs_nil, IsWs_nil⟩)
      (by intro e he; rw [List.mem_singleton.1 he]; exact ih)
    have e : (0x5B : Byte) :: (joinComma (List.map Elem.text
        [(⟨[], nestedArrays (n + 1), []⟩ : Elem)]) ++ [(0x5D : Byte)]) =
        nestedArrays (n + 1 + 1) := by
      simp only [List.map, joinComma, Elem.text, List.nil_append, List.append_nil,
        nestedArrays]
      rw [List.replicate_succ (n := n + 1), List.replicate_succ' (n := n + 1)]
      simp
    rw [e] at h
    exact h

theorem IsJSON_singleMember (name v : Bytes) (hname : StrBody name) (hv : IsValue v) :
    IsJSON (singleMember name v) := by
  have h := IsValue.object [⟨[], name, [], [], v, []⟩] (by simp)
    (by
      intro m hm; rw [List.mem_singleton.1 hm]
      exact ⟨IsWs_nil, hname, IsWs_nil, IsWs_nil, IsWs_nil⟩)
    (by intro m hm; rw [List.mem_singleton.1 hm]; exact hv)
  refine ⟨[], _, [], IsWs_nil, h, IsWs_nil, ?_⟩
  simp only [singleMember, List.map, joinComma, Member.text, List.nil_append, List.append_nil,
    List.cons_append, List.append_assoc]

theorem scanValue_deep_member (name : Bytes) (hname : StrBody name) (d n : Nat) :
    scanValue n (d + 1) (singleMember name (nestedArrays (d + 1))) = none := by
  cases n with
  | zero => rfl
  | succ n =>
    have hsk : skipSpace ((0x22 : Byte) :: (name ++ ((0x22 : Byte) :: (0x3A : Byte) ::
        (nestedArrays (d + 1) ++ [(0x7D : Byte)])))) =
        (0x22 : Byte) :: (name ++ ((0x22 : Byte) :: (0x3A : Byte) ::
        (nestedArrays (d + 1) ++ [(0x7D : Byte)]))) :=
      skipSpace_cons_of_not_space _ _ (by decide)
    show scanValue (n + 1) (d + 1) ((0x7B : Byte) :: (0x22 : Byte) ::
      (name ++ ((0x22 : Byte) :: (0x3A : Byte) :: (nestedArrays (d + 1) ++ [(0x7D : Byte)])))) = none
    rw [scanValue_succ, if_pos (by decide)]
    simp only
    rw [hsk]
    simp only
    rw [if_neg (by decide)]
    cases n with
    | zero => rfl
    | succ k =>
      rw [scanMembers_succ, if_pos (by decide), scanString_complete _ _ hname]
      simp only
      rw [skipSpace_cons_of_not_space _ _ (by decide)]
      simp only
      rw [if_pos (by decide)]
      have hsk2 : skipSpace (nestedArrays (d + 1) ++ [(0x7D : Byte)]) =
          List.replicate (d + 1) (0x5B : Byte) ++
            (List.replicate (d + 1) (0x5D : Byte) ++ [(0x7D : Byte)]) := by
        unfold nestedArrays
        rw [List.append_assoc, List.replicate_succ, List.cons_append]
        exact skipSpace_cons_of_not_space _ _ (by decide)
      rw [hsk2, scanValue_too_deep d (k + 1)]

/-- The object `{"name":[[...]]}` with `maxNestingDepth` nested arrays is a
JSON text, and the syntax check rejects it: it is nested one level too
deep. -/
theorem deep_member_rejected (name : Bytes) (hname : StrBody name) :
    IsJSON (singleMember name (nestedArrays maxNestingDepth)) ∧
    checkValid (singleMember name (nestedArrays maxNestingDepth)) = false := by
  constructor
  · exact IsJSON_singleMember name _ hname
      (IsValueAt_nestedArrays (maxNestingDepth - 1)).toIsValue
  · have hsk : skipSpace (singleMember name (nestedArrays maxNestingDepth)) =
        singleMember name (nestedArrays maxNestingDepth) :=
      skipSpace_cons_of_not_space _ _ (by decide)
    have h := scanValue_deep_member name hname (maxNestingDepth - 1)
      ((singleMember name (nestedArrays maxNestingDepth)).length + 1)
    have e : maxNestingDepth - 1 + 1 = maxNestingDepth := rfl
    rw [e] at h
    unfold checkValid
    rw [hsk, h]

end Client
namespace Client

/-! ## Decoding an object into the `response` struct -/

theorem consumed_append (a b : Bytes) : consumed (a ++ b) b = a := by
  unfold consumed
  simp

theorem decodeMembers_succ (k : Nat) (q : Byte) (s1 : Bytes) (v : response) :
    decodeMembers (k + 1) (q :: s1) v =
      match scanString s1 with
      | none => v
      | some s2 =>
        match skipSpace s2 with
        | [] => v
        | _ :: s3 =>
          match scanValue ((skipSpace s3).length + 1) (maxNestingDepth - 1) (skipSpace s3) with
          | none => v
          | some s5 =>
            match skipSpace s5 with
            | [] => if fieldMatches (consumed s1 s2).dropLast then
                ⟨some (consumed (skipSpace s3) s5)⟩ else v
            | d :: s6 =>
              if d.val = 0x2C then
                decodeMembers k (skipSpace s6)
                  (if fieldMatches (consumed s1 s2).dropLast then
                    ⟨some (consumed (skipSpace s3) s5)⟩ else v)
              else if fieldMatches (consumed s1 s2).dropLast then
                ⟨some (consumed (skipSpace s3) s5)⟩ else v := by
  rw [decodeMembers]

theorem decodeMembers_complete (tail : Bytes) :
    ∀ (ms : List Member), ms ≠ [] → (∀ m ∈ ms, m.Layout) →
      (∀ m ∈ ms, IsValueAt (maxNestingDepth - 1) m.val) →
      ∀ (k : Nat), ms.length ≤ k → ∀ (acc : Option Bytes),
      decodeMembers k
          (skipSpace (joinComma (ms.map Member.text) ++ (0x7D : Byte) :: tail)) ⟨acc⟩ =
        ⟨lastMatch ms acc⟩ := by
  intro ms
  induction ms with
  | nil => intro h; exact absurd rfl h
  | cons m ms ih =>
    intro _ hl hval k hk acc
    obtain ⟨c, t, hct, hcs, _, _⟩ := IsValue_head m.val (hval m (by simp)).toIsValue
    obtain ⟨l1, l2, l3, l4, l5⟩ := hl m (by simp)
    cases k with
    | zero => simp at hk
    | succ k =>
      have step : ∀ (rest : Bytes) (d : Byte), isSpace d = false →
          (d.val = 0x2C ∨ d.val = 0x7D) →
          decodeMembers (k + 1) (skipSpace (m.text ++ d :: rest)) ⟨acc⟩ =
            if d.val = 0x2C then
              decodeMembers k (skipSpace rest)
                (if fieldMatches m.key then ⟨some m.val⟩ else ⟨acc⟩)
            else if fieldMatches m.key then ⟨some m.val⟩ else ⟨acc⟩ := by
        intro rest d hd hd2
        have h1 : skipSpace (m.text ++ d :: rest) =
            (0x22 : Byte) :: ((m.key ++ [(0x22 : Byte)]) ++ (m.mid1 ++ (0x3A : Byte) ::
              (m.mid2 ++ (m.val ++ (m.post ++ d :: rest))))) := by
          simp only [Member.text, List.append_assoc, List.cons_append, List.nil_append]
          rw [skipSpace_ws_cons _ _ _ l1 (by decide)]
        have h2 : scanString ((m.key ++ [(0x22 : Byte)]) ++ (m.mid1 ++ (0x3A : Byte) ::
              (m.mid2 ++ (m.val ++ (m.post ++ d :: rest))))) =
            some (m.mid1 ++ (0x3A : Byte) :: (m.mid2 ++ (m.val ++ (m.post ++ d :: rest)))) := by
          rw [List.append_assoc]
          exact scanString_complete _ _ l2
        have h3 : skipSpace (m.mid2 ++ (m.val ++ (m.post ++ d :: rest))) =
            m.val ++ (m.post ++ d :: rest) := by
          rw [hct, List.cons_append, skipSpace_ws_cons _ _ _ l4 hcs]
        have h4 : scanValue ((m.val ++ (m.post ++ d :: rest)).length + 1)
            (maxNestingDepth - 1)
            (m.val ++ (m.post ++ d :: rest)) = some (m.post ++ d :: rest) := by
          apply scanValue_complete _ m.val (hval m (by simp))
          · simp only [List.length_append]; omega
          · exact Follow_ws_append _ _ l5 (Follow_cons _ _ (by
              rcases hd2 with h | h
              · exact Or.inr (Or.inl h)
              · exact Or.inr (Or.inr (Or.inr h))))
        rw [h1, decodeMembers_succ, h2]
        simp only
        rw [skipSpace_ws_cons _ _ _ l3 (by decide)]
        simp only
        rw [h3, h4]
        simp only
        rw [skipSpace_ws_cons _ _ _ l5 hd]
        simp only [consumed_append, List.dropLast_concat]
      by_cases hms : ms = []
      · subst hms
        have := step tail (0x7D : Byte) (by decide) (Or.inr (by decide))
        simp only [List.map, joinComma]
        rw [this, if_neg (by decide)]
        simp only [lastMatch]
        split <;> rfl
      · rw [List.map_cons, joinComma_cons _ _ (by simpa using hms)]
        have := step (joinComma (ms.map Member.text) ++ (0x7D : Byte) :: tail) (0x2C : Byte)
          (by decide) (Or.inl (by decide))
        rw [List.append_assoc, List.cons_append, this, if_pos (by decide)]
        have hrec := ih hms (fun x hx => hl x (List.mem_cons_of_mem _ hx))
          (fun x hx => hval x (List.mem_cons_of_mem _ hx)) k (by simp at hk; omega)
        simp only [lastMatch]
        split
        · exact hrec _
        · exact hrec _

theorem checkValid_objectText (w1 : Bytes) (ms : List Member) (w w2 : Bytes)
    (hw1 : IsWs w1) (hw : IsWs w) (hw2 : IsWs w2) (hl : ∀ m ∈ ms, m.Layout)
    (hval : ∀ m ∈ ms, IsValueAt (maxNestingDepth - 1) m.val) :
    checkValid (objectText w1 ms w w2) = true := by
  cases ms with
  | nil =>
    have h := checkValid_complete w1 _ w2 hw1
      (IsValueAt.emptyObject (maxNestingDepth - 1) w hw) hw2
    simpa [objectText] using h
  | cons m ms =>
    have h := checkValid_complete w1 _ w2 hw1
      (IsValueAt.object (maxNestingDepth - 1) (m :: ms) (by simp) hl hval) hw2
    simpa [objectText] using h

theorem jsonUnmarshal_object (w1 : Bytes) (ms : List Member) (w w2 : Bytes)
    (hw1 : IsWs w1) (hw : IsWs w) (hw2 : IsWs w2) (hl : ∀ m ∈ ms, m.Layout)
    (hval : ∀ m ∈ ms, IsValueAt (maxNestingDepth - 1) m.val) :
    jsonUnmarshal (objectText w1 ms w w2) ⟨none⟩ = (⟨lastMatch ms none⟩, none) := by
  have hvalid := checkValid_objectText w1 ms w w2 hw1 hw hw2 hl hval
  unfold jsonUnmarshal
  rw [if_pos hvalid]
  cases ms with
  | nil =>
    have h1 : skipSpace (objectText w1 [] w w2) = (0x7B : Byte) :: (w ++ (0x7D : Byte) :: w2) := by
      simp only [objectText]
      rw [skipSpace_ws_cons _ _ _ hw1 (by decide)]
    rw [h1]
    simp only
    rw [if_pos (by decide), skipSpace_ws_cons _ _ _ hw (by decide)]
    simp only
    rw [if_pos (by decide)]
    rfl
  | cons m ms =>
    have h1 : skipSpace (objectText w1 (m :: ms) w w2) =
        (0x7B : Byte) :: (joinComma ((m :: ms).map Member.text) ++ (0x7D : Byte) :: w2) := by
      simp only [objectText]
      rw [skipSpace_ws_cons _ _ _ hw1 (by decide)]
    have hsk : ∃ u, skipSpace (joinComma ((m :: ms).map Member.text) ++ (0x7D : Byte) :: w2) =
        (0x22 : Byte) :: u := by
      rw [List.map_cons]
      by_cases h0 : ms = []
      · subst h0
        simp only [List.map, joinComma, Member.text, List.append_assoc, List.cons_append]
        rw [skipSpace_ws_cons _ _ _ (hl m (by simp)).1 (by decide)]
        exact ⟨_, rfl⟩
      · rw [joinComma_cons _ _ (by simpa using h0)]
        simp only [Member.text, List.append_assoc, List.cons_append]
        rw [skipSpace_ws_cons _ _ _ (hl m (by simp)).1 (by decide)]
        exact ⟨_, rfl⟩
    obtain ⟨u, hu⟩ := hsk
    have hlen : (m :: ms).length ≤ (objectText w1 (m :: ms) w w2).length := by
      have := length_le_joinComma ((m :: ms).map Member.text) (by
        intro a ha
        obtain ⟨x, _, rfl⟩ := List.mem_map.1 ha
        exact Member_text_ne_nil x)
      simp only [List.length_map, List.length_cons] at this
      simp only [objectText, List.length_append, List.length_cons]
      omega
    have hdec := decodeMembers_complete w2 (m :: ms) (by simp) hl hval _ hlen none
    rw [h1]
    simp only
    rw [if_pos (by decide)]
    rw [hu] at hdec ⊢
    simp only
    rw [if_neg (by decide), hdec]

theorem lastMatch_none (ms : List Member) (h : ∀ m ∈ ms, fieldMatches m.key = false)
    (acc : Option Bytes) : lastMatch ms acc = acc := by
  induction ms generalizing acc with
  | nil => rfl
  | cons m ms ih =>
    simp only [lastMatch, h m (by simp), Bool.false_eq_true, if_false]
    exact ih (fun x hx => h x (List.mem_cons_of_mem _ hx)) acc

theorem lastMatch_last (ms1 : List Member) (m : Member) (ms2 : List Member)
    (hm : fieldMatches m.key = true) (h : ∀ x ∈ ms2, fieldMatches x.key = false)
    (acc : Option Bytes) : lastMatch (ms1 ++ m :: ms2) acc = some m.val := by
  induction ms1 generalizing acc with
  | nil =>
    simp only [List.nil_append, lastMatch, hm, if_true]
    exact lastMatch_none ms2 h _
  | cons a ms1 ih =>
    simp only [List.cons_append, lastMatch]
    exact ih _

theorem unmarshalData_object (g : gameServerService) (w1 : Bytes) (ms : List Member)
    (w w2 : Bytes) (hw1 : IsWs w1) (hw : IsWs w) (hw2 : IsWs w2) (hl : ∀ m ∈ ms, m.Layout)
    (hval : ∀ m ∈ ms, IsValueAt (maxNestingDepth - 1) m.val) :
    g.unmarshalData (objectText w1 ms w w2) = (lastMatch ms none, none) := by
  unfold gameServerService.unmarshalData
  rw [jsonUnmarshal_object w1 ms w w2 hw1 hw hw2 hl hval]

theorem unmarshalData_invalid (g : gameServerService) (body : Bytes) (h : ¬ IsJSON body) :
    g.unmarshalData body = (none, some GoError.jsonSyntaxError) := by
  have hc : checkValid body = false := by
    cases hcv : checkValid body with
    | false => rfl
    | true => exact absurd (checkValid_sound body hcv) h
  unfold gameServerService.unmarshalData jsonUnmarshal
  rw [hc]
  rfl

theorem unmarshalData_rejected (g : gameServerService) (body : Bytes)
    (h : checkValid body = false) :
    g.unmarshalData body = (none, some GoError.jsonSyntaxError) := by
  unfold gameServerService.unmarshalData jsonUnmarshal
  rw [h]
  rfl

theorem get_ok (parseErr : Bytes → Option GoError) (g : gameServerService) (m : Bytes)
    (p : Option Values) (status : Nat) (body : Bytes)
    (h1 : parseErr (g.buildURL m p).1 = none)
    (h2 : g.http ⟨go "GET", urlParse (g.buildURL m p).1, none, []⟩ =
      Except.ok ⟨status, Except.ok body⟩) :
    (g.get parseErr m p).ret = g.unmarshalData body := by
  unfold gameServerService.get NewRequest
  simp only [h1, h2]

theorem post_ok (parseErr : Bytes → Option GoError) (g : gameServerService) (m : Bytes)
    (p : Option Values) (status : Nat) (body : Bytes)
    (h1 : parseErr (g.buildURL m none).1 = none)
    (h2 : g.http ⟨go "POST", urlParse (g.buildURL m none).1, some (Values.Encode p),
        [(go "Content-Type", go "application/x-www-form-urlencoded")]⟩ =
      Except.ok ⟨status, Except.ok body⟩) :
    (g.post parseErr m p).ret = g.unmarshalData body := by
  unfold gameServerService.post NewRequest
  simp only [h1, Request.addHeader, List.nil_append, h2]

/-! ## Recognising concrete texts -/

theorem IsValueAt_of_scan (d : Nat) (v : Bytes) (h : scanValue v.length d v = some []) :
    IsValueAt d v := by
  obtain ⟨x, hx, hv⟩ := scanValue_sound _ _ _ _ h
  rw [List.append_nil] at hv
  rw [hv]; exact hx

theorem StrBody_of_scan (b : Bytes) (h : scanString (b ++ [(0x22 : Byte)]) = some []) :
    StrBody b := by
  obtain ⟨x, hx, hb⟩ := scanString_sound _ _ h
  have : b = x := List.append_cancel_right hb
  rw [this]; exact hx

theorem IsWs_space : IsWs (go " ") := by
  intro c hc
  have : c = (0x20 : Byte) := by simpa [go, utf8Encode] using hc
  rw [this]; decide

theorem not_IsJSON_not_json : ¬ IsJSON (go "not json") := by
  intro h
  obtain ⟨d, rest, hs, _⟩ := h.scanned
  have e1 : skipSpace (go "not json") = (0x6E : Byte) :: go "ot json" := by decide
  have e2 : (go "not json").length + 1 = 8 + 1 := by decide
  have e3 : scanWord (go "null") ((0x6E : Byte) :: go "ot json") = none := by decide
  rw [e1, e2, scanValue_succ, if_neg (by decide), if_neg (by decide), if_neg (by decide),
    if_neg (by decide), if_neg (by decide), if_pos (by decide), e3] at hs
  exact absurd hs (by simp)

end Client
namespace Client

/-! ## Envelope unwrapping -/

/-- C3 (as stated) fails: the body `{"response":1,"Response":2}` is a JSON
object whose `response` member has the value `1`, yet `get` returns the raw
bytes `2`, because `encoding/json` also stores the member `Response` in the
field tagged `response`, and the last matching member wins.  And the body
`{"response":[[...]]}` with 10000 nested arrays is a JSON object with a
`response` member, yet `get` returns a `SyntaxError`: the scanner allows 10000
nesting levels and the object has taken one. -/
theorem get_response_member_overwritten :
    objectText [] [⟨[], go "response", [], [], go "1", []⟩,
        ⟨[], go "Response", [], [], go "2", []⟩] [] [] =
      go "\x7b\"response\":1,\"Response\":2\x7d" ∧
    IsJSON (go "\x7b\"response\":1,\"Response\":2\x7d") ∧
    ((gameServerService.mk
        (fun _ => Except.ok ⟨200, Except.ok (go "\x7b\"response\":1,\"Response\":2\x7d")⟩)
        (go "B") (go "K")).get (fun _ => none) (go "M") none).ret = (some (go "2"), none) ∧
    IsJSON (singleMember (go "response") (nestedArrays maxNestingDepth)) ∧
    ((gameServerService.mk
        (fun _ => Except.ok ⟨200, Except.ok
          (singleMember (go "response") (nestedArrays maxNestingDepth))⟩)
        (go "B") (go "K")).get (fun _ => none) (go "M") none).ret =
      (none, some GoError.jsonSyntaxError) := by
  have hname : StrBody (go "response") := StrBody_of_scan _ (by decide)
  refine ⟨by decide, checkValid_sound _ (by decide), by decide,
    (deep_member_rejected _ hname).1, ?_⟩
  rw [get_ok (fun _ => none) _ (go "M") none 200 _ rfl rfl]
  exact unmarshalData_rejected _ _ (deep_member_rejected _ hname).2

/-- C3 (amended). When the transport answers the GET request for
`buildURL(m, p)` with a JSON object whose member values are nested at most
9999 levels deep (the object itself is the 10000th level the scanner allows),
`get` returns a nil error and exactly the raw bytes, as they stand in the
body, of the value of the last member whose name selects the field `response`
(exact or case-folded match); the name `response` itself selects it, and for
the body `{"response": {"a":1}}` the payload is `{"a":1}`. -/
theorem get_returns_raw_response (parseErr : Bytes → Option GoError) (g : gameServerService)
    (m : Bytes) (p : Option Values) (status : Nat)
    (w1 : Bytes) (ms1 : List Member) (mm : Member) (ms2 : List Member) (w2 : Bytes)
    (hw1 : IsWs w1) (hw2 : IsWs w2)
    (hl : ∀ x ∈ ms1 ++ mm :: ms2, x.Layout)
    (hval : ∀ x ∈ ms1 ++ mm :: ms2, IsValueAt (maxNestingDepth - 1) x.val)
    (hm : fieldMatches mm.key = true) (hlast : ∀ x ∈ ms2, fieldMatches x.key = false)
    (h1 : parseErr (g.buildURL m p).1 = none)
    (h2 : g.http ⟨go "GET", urlParse (g.buildURL m p).1, none, []⟩ =
      Except.ok ⟨status, Except.ok (objectText w1 (ms1 ++ mm :: ms2) [] w2)⟩) :
    (g.get parseErr m p).ret = (some mm.val, none) ∧
    fieldMatches (go "response") = true ∧
    g.unmarshalData (go "\x7b\"response\": \x7b\"a\":1\x7d\x7d") =
      (some (go "\x7b\"a\":1\x7d"), none) := by
  have hex : jsonUnmarshal (go "\x7b\"response\": \x7b\"a\":1\x7d\x7d") ⟨none⟩ =
      (⟨some (go "\x7b\"a\":1\x7d")⟩, none) := by decide
  refine ⟨?_, by decide, by unfold gameServerService.unmarshalData; rw [hex]⟩
  rw [get_ok parseErr g m p status _ h1 h2,
    unmarshalData_object g w1 _ [] w2 hw1 IsWs_nil hw2 hl hval,
    lastMatch_last ms1 mm ms2 hm hlast]

/-- C4 (as stated) fails: the body `{"Response":1}` is a JSON object with no
member named `response`, yet the payload is `1`, not nil.  And the body
`{"other":[[...]]}` with 10000 nested arrays is a JSON object with no
`response` member, yet the error is a `SyntaxError`, not nil: the scanner
allows 10000 nesting levels and the object has taken one. -/
theorem unmarshalData_case_variant_member :
    objectText [] [⟨[], go "Response", [], [], go "1", []⟩] [] [] =
      go "\x7b\"Response\":1\x7d" ∧
    IsJSON (go "\x7b\"Response\":1\x7d") ∧
    go "Response" ≠ go "response" ∧
    (gameServerService.mk (fun _ => Except.error (GoError.other 0)) (go "B")
      (go "K")).unmarshalData (go "\x7b\"Response\":1\x7d") = (some (go "1"), none) ∧
    IsJSON (singleMember (go "other") (nestedArrays maxNestingDepth)) ∧
    fieldMatches (go "other") = false ∧
    (gameServerService.mk (fun _ => Except.error (GoError.other 0)) (go "B")
      (go "K")).unmarshalData (singleMember (go "other") (nestedArrays maxNestingDepth)) =
      (none, some GoError.jsonSyntaxError) := by
  have hname : StrBody (go "other") := StrBody_of_scan _ (by decide)
  exact ⟨by decide, checkValid_sound _ (by decide), by decide, by decide,
    (deep_member_rejected _ hname).1, by decide,
    unmarshalData_rejected _ _ (deep_member_rejected _ hname).2⟩

/-- C4 (amended). For a JSON object whose member values are nested at most
9999 levels deep (the object itself is the 10000th level the scanner allows)
and none of whose member names selects the field `response` (neither exactly
nor after case folding), `unmarshalData` returns a nil payload and a nil
error; `{"other":1}` is such a body. -/
theorem unmarshalData_missing_field (g : gameServerService)
    (w1 : Bytes) (ms : List Member) (w w2 : Bytes)
    (hw1 : IsWs w1) (hw : IsWs w) (hw2 : IsWs w2)
    (hl : ∀ x ∈ ms, x.Layout) (hval : ∀ x ∈ ms, IsValueAt (maxNestingDepth - 1) x.val)
    (hno : ∀ x ∈ ms, fieldMatches x.key = false) :
    g.unmarshalData (objectText w1 ms w w2) = (none, none) ∧
    fieldMatches (go "other") = false ∧
    g.unmarshalData (go "\x7b\"other\":1\x7d") = (none, none) := by
  have hex : jsonUnmarshal (go "\x7b\"other\":1\x7d") ⟨none⟩ = (⟨none⟩, none) := by decide
  refine ⟨?_, by decide, by unfold gameServerService.unmarshalData; rw [hex]⟩
  rw [unmarshalData_object g w1 ms w w2 hw1 hw hw2 hl hval, lastMatch_none ms hno]

/-- C5. A body that is not a JSON text makes `unmarshalData` return a nil
payload and a `SyntaxError`, and so do `get` and `post` when the transport
delivers that body. -/
theorem invalid_json_decode_error (parseErr : Bytes → Option GoError)
    (g : gameServerService) (m : Bytes) (p : Option Values) (status : Nat) (body : Bytes)
    (h : ¬ IsJSON body) :
    g.unmarshalData body = (none, some GoError.jsonSyntaxError) ∧
    (parseErr (g.buildURL m p).1 = none →
      g.http ⟨go "GET", urlParse (g.buildURL m p).1, none, []⟩ =
        Except.ok ⟨status, Except.ok body⟩ →
      (g.get parseErr m p).ret = (none, some GoError.jsonSyntaxError)) ∧
    (parseErr (g.buildURL m none).1 = none →
      g.http ⟨go "POST", urlParse (g.buildURL m none).1, some (Values.Encode p),
        [(go "Content-Type", go "application/x-www-form-urlencoded")]⟩ =
        Except.ok ⟨status, Except.ok body⟩ →
      (g.post parseErr m p).ret = (none, some GoError.jsonSyntaxError)) := by
  refine ⟨unmarshalData_invalid g body h, ?_, ?_⟩
  · intro h1 h2
    rw [get_ok parseErr g m p status body h1 h2, unmarshalData_invalid g body h]
  · intro h1 h2
    rw [post_ok parseErr g m p status body h1 h2, unmarshalData_invalid g body h]

/-- C8 (as stated) fails: `[1]`, `123` and `"x"` are JSON texts, and
`unmarshalData` returns an `UnmarshalTypeError` for each of them.  And the
object `{"response":[[...]]}` with 10000 nested arrays is a JSON text for
which `unmarshalData` returns a `SyntaxError`: it is nested deeper than the
10000 levels the scanner allows. -/
theorem valid_json_type_errors :
    IsJSON (go "[1]") ∧ IsJSON (go "123") ∧ IsJSON (go "\"x\"") ∧
    (gameServerService.mk (fun _ => Except.error (GoError.other 0)) (go "B")
      (go "K")).unmarshalData (go "[1]") =
      (none, some (GoError.jsonUnmarshalTypeError (go "array"))) ∧
    (gameServerService.mk (fun _ => Except.error (GoError.other 0)) (go "B")
      (go "K")).unmarshalData (go "123") =
      (none, some (GoError.jsonUnmarshalTypeError (go "number"))) ∧
    (gameServerService.mk (fun _ => Except.error (GoError.other 0)) (go "B")
      (go "K")).unmarshalData (go "\"x\"") =
      (none, some (GoError.jsonUnmarshalTypeError (go "string"))) ∧
    IsJSON (singleMember (go "response") (nestedArrays maxNestingDepth)) ∧
    (gameServerService.mk (fun _ => Except.error (GoError.other 0)) (go "B")
      (go "K")).unmarshalData (singleMember (go "response") (nestedArrays maxNestingDepth)) =
      (none, some GoError.jsonSyntaxError) := by
  have hname : StrBody (go "response") := StrBody_of_scan _ (by decide)
  exact ⟨checkValid_sound _ (by decide), checkValid_sound _ (by decide),
    checkValid_sound _ (by decide), by decide, by decide, by decide,
    (deep_member_rejected _ hname).1,
    unmarshalData_rejected _ _ (deep_member_rejected _ hname).2⟩

/-- C8 (amended). For a JSON text whose top-level value `v` is nested at most
10000 levels deep (the scanner's bound) the error of `unmarshalData` is
decided by the kind of `v`, which its first byte `c` tells:
nil for an object (`{`, whatever its members hold) and for `null` (`n`); an
`UnmarshalTypeError` naming the kind for an array (`[`), a string (`"`), a
boolean (`t`, `f`) and a number (any other first byte). -/
theorem unmarshalData_error_by_kind (g : gameServerService) (w1 v w2 : Bytes)
    (hw1 : IsWs w1) (hv : IsValueAt maxNestingDepth v) (hw2 : IsWs w2) :
    ∃ (c : Byte) (t : Bytes), v = c :: t ∧
      (g.unmarshalData (w1 ++ (v ++ w2))).2 =
        if c.val = 0x7B ∨ c.val = 0x6E then none
        else if c.val = 0x5B then some (GoError.jsonUnmarshalTypeError (go "array"))
        else if c.val = 0x22 then some (GoError.jsonUnmarshalTypeError (go "string"))
        else if c.val = 0x74 ∨ c.val = 0x66 then
          some (GoError.jsonUnmarshalTypeError (go "bool"))
        else some (GoError.jsonUnmarshalTypeError (go "number")) := by
  obtain ⟨c, t, hct, hcs, _, _⟩ := IsValue_head v hv.toIsValue
  refine ⟨c, t, hct, ?_⟩
  have hvalid := checkValid_complete w1 v w2 hw1 hv hw2
  have hsk : skipSpace (w1 ++ (v ++ w2)) = c :: (t ++ w2) := by
    rw [hct, List.cons_append, skipSpace_ws_cons _ _ _ hw1 hcs]
  unfold gameServerService.unmarshalData jsonUnmarshal
  rw [if_pos hvalid, hsk]
  simp only
  by_cases h1 : c.val = 0x7B
  · rw [if_pos h1, if_pos (Or.inl h1)]
    cases skipSpace (t ++ w2) with
    | nil => rfl
    | cons d u =>
      simp only
      by_cases h2 : d.val = 0x7D
      · rw [if_pos h2]
      · rw [if_neg h2]
  · rw [if_neg h1]
    split_ifs <;> first | rfl | omega

end Client
namespace Client

/-! ## Instances at concrete inputs -/

/-- C1 at `{steamid: ["V 1"]}` with base `B`, method `M`, key `K`. -/
theorem buildURL_query_entries_witness :
    Values.WF ((some [(go "steamid", [go "V 1"])]).getD []) ∧
    Values.has ((some [(go "steamid", [go "V 1"])]).getD []) (go "key") = false ∧
    ∃ (q : Bytes) (L : List (Bytes × Bytes)),
      ((gameServerService.mk (fun _ => Except.error (GoError.other 0)) (go "B")
        (go "K")).buildURL (go "M") (some [(go "steamid", [go "V 1"])])).1 =
        go "B" ++ go "/" ++ go "M" ++ go "/v1?" ++ q ∧
      decodeQuery q = some L ∧
      L.Perm (Values.entries ((some [(go "steamid", [go "V 1"])]).getD []) ++
        [(go "key", go "K")]) :=
  ⟨by decide, by decide,
    buildURL_query_entries
      (gameServerService.mk (fun _ => Except.error (GoError.other 0)) (go "B") (go "K"))
      (go "M") (some [(go "steamid", [go "V 1"])]) (by decide) (by decide)⟩

/-- C10 at `{steamid: ["V 1"]}` with base `B`, method `M`, key `K`. -/
theorem buildURL_query_sorted_witness :
    Values.WF [(go "steamid", [go "V 1"])] ∧
    Values.has [(go "steamid", [go "V 1"])] (go "key") = false ∧
    ((gameServerService.mk (fun _ => Except.error (GoError.other 0)) (go "B")
        (go "K")).buildURL (go "M") (some [(go "steamid", [go "V 1"])])).1 =
      go "B" ++ go "/" ++ go "M" ++ go "/v1?" ++ go "key=" ++ QueryEscape (go "K") ++
        go "&steamid=" ++ QueryEscape (go "V 1") :=
  ⟨by decide, by decide,
    (buildURL_query_sorted
      (gameServerService.mk (fun _ => Except.error (GoError.other 0)) (go "B") (go "K"))
      (go "M") [(go "steamid", [go "V 1"])] (by decide) (by decide)).2.2 (go "V 1")⟩

/-- C2 (amended) at base `B`, method `M`, key `K 1` and `{foo: ["bar baz"]}`. -/
theorem post_request_witness :
    ((0x3F : Byte) ∉ go "B" ∧ (0x23 : Byte) ∉ go "B") ∧
    ((0x3F : Byte) ∉ go "M" ∧ (0x23 : Byte) ∉ go "M") ∧
    ((gameServerService.mk (fun _ => Except.error (GoError.other 0)) (go "B")
        (go "K 1")).post (fun _ => none) (go "M") (some [(go "foo", [go "bar baz"])])).sent =
      [⟨go "POST", ⟨go "B/M/v1", go "key=K+1", []⟩, some (go "foo=bar+baz"),
        [(go "Content-Type", go "application/x-www-form-urlencoded")]⟩] :=
  ⟨by decide, by decide,
    (post_request (fun _ => none)
      (gameServerService.mk (fun _ => Except.error (GoError.other 0)) (go "B") (go "K 1"))
      (go "M") (some [(go "foo", [go "bar baz"])]) (by decide) (by decide)).1⟩

/-- C6 with a transport that always fails with error 7. -/
theorem transport_error_returned_witness :
    ((gameServerService.mk (fun _ => Except.error (GoError.other 7)) (go "B")
      (go "K")).get (fun _ => none) (go "M") none).ret = (none, some (GoError.other 7)) ∧
    ((gameServerService.mk (fun _ => Except.error (GoError.other 7)) (go "B")
      (go "K")).post (fun _ => none) (go "M") none).ret = (none, some (GoError.other 7)) :=
  ⟨(transport_error_returned (fun _ => none)
      (gameServerService.mk (fun _ => Except.error (GoError.other 7)) (go "B") (go "K"))
      (go "M") none (GoError.other 7)).1 rfl rfl,
    (transport_error_returned (fun _ => none)
      (gameServerService.mk (fun _ => Except.error (GoError.other 7)) (go "B") (go "K"))
      (go "M") none (GoError.other 7)).2 rfl rfl⟩

/-- C9 with the body `null` answered with status 200 and with status 403. -/
theorem status_code_ignored_witness :
    ((gameServerService.mk (fun _ => Except.ok ⟨200, Except.ok (go "null")⟩) (go "B")
        (go "K")).get (fun _ => none) (go "M") none).ret =
      ((gameServerService.mk (fun _ => Except.ok ⟨403, Except.ok (go "null")⟩) (go "B")
        (go "K")).get (fun _ => none) (go "M") none).ret ∧
    ((gameServerService.mk (fun _ => Except.ok ⟨200, Except.ok (go "null")⟩) (go "B")
        (go "K")).post (fun _ => none) (go "M") none).ret =
      ((gameServerService.mk (fun _ => Except.ok ⟨403, Except.ok (go "null")⟩) (go "B")
        (go "K")).post (fun _ => none) (go "M") none).ret :=
  ⟨((status_code_ignored (fun _ => none)
      (fun _ => Except.ok ⟨200, Except.ok (go "null")⟩)
      (fun _ => Except.ok ⟨403, Except.ok (go "null")⟩)
      (go "B") (go "K") (go "M") none 200 403 (go "null")).1 rfl rfl rfl).1,
    ((status_code_ignored (fun _ => none)
      (fun _ => Except.ok ⟨200, Except.ok (go "null")⟩)
      (fun _ => Except.ok ⟨403, Except.ok (go "null")⟩)
      (go "B") (go "K") (go "M") none 200 403 (go "null")).2 rfl rfl rfl).1⟩

/-- C3 (amended) at the body `{"response": {"a":1}}`. -/
theorem get_returns_raw_response_witness :
    objectText [] ([] ++ (⟨[], go "response", [], go " ", go "\x7b\"a\":1\x7d", []⟩ : Member)
      :: []) [] [] = go "\x7b\"response\": \x7b\"a\":1\x7d\x7d" ∧
    ((gameServerService.mk
        (fun _ => Except.ok ⟨200, Except.ok (objectText []
          ([] ++ (⟨[], go "response", [], go " ", go "\x7b\"a\":1\x7d", []⟩ : Member) :: [])
          [] [])⟩)
        (go "B") (go "K")).get (fun _ => none) (go "M") none).ret =
      (some (go "\x7b\"a\":1\x7d"), none) :=
  ⟨by decide,
    (get_returns_raw_response (fun _ => none)
      (gameServerService.mk
        (fun _ => Except.ok ⟨200, Except.ok (objectText []
          ([] ++ (⟨[], go "response", [], go " ", go "\x7b\"a\":1\x7d", []⟩ : Member) :: [])
          [] [])⟩)
        (go "B") (go "K"))
      (go "M") none 200 [] [] ⟨[], go "response", [], go " ", go "\x7b\"a\":1\x7d", []⟩ [] []
      IsWs_nil IsWs_nil
      (by
        intro x hx
        rw [List.nil_append, List.mem_singleton] at hx
        subst hx
        exact ⟨IsWs_nil, StrBody_of_scan _ (by decide), IsWs_nil, IsWs_space, IsWs_nil⟩)
      (by
        intro x hx
        rw [List.nil_append, List.mem_singleton] at hx
        subst hx
        exact IsValueAt_of_scan _ _ (by decide))
      (by decide) (fun _ hx => nomatch hx) rfl rfl).1⟩

/-- C4 (amended) at the body `{"other":1}`. -/
theorem unmarshalData_missing_field_witness :
    objectText [] [(⟨[], go "other", [], [], go "1", []⟩ : Member)] [] [] =
      go "\x7b\"other\":1\x7d" ∧
    (gameServerService.mk (fun _ => Except.error (GoError.other 0)) (go "B")
      (go "K")).unmarshalData
        (objectText [] [(⟨[], go "other", [], [], go "1", []⟩ : Member)] [] []) =
      (none, none) :=
  ⟨by decide,
    (unmarshalData_missing_field
      (gameServerService.mk (fun _ => Except.error (GoError.other 0)) (go "B") (go "K"))
      [] [⟨[], go "other", [], [], go "1", []⟩] [] [] IsWs_nil IsWs_nil IsWs_nil
      (by
        intro x hx
        rw [List.mem_singleton] at hx
        subst hx
        exact ⟨IsWs_nil, StrBody_of_scan _ (by decide), IsWs_nil, IsWs_nil, IsWs_nil⟩)
      (by
        intro x hx
        rw [List.mem_singleton] at hx
        subst hx
        exact IsValueAt_of_scan _ _ (by decide))
      (by
        intro x hx
        rw [List.mem_singleton] at hx
        subst hx
        decide)).1⟩

/-- C5 at the body `not json`, delivered with status 200. -/
theorem invalid_json_decode_error_witness :
    (gameServerService.mk (fun _ => Except.ok ⟨200, Except.ok (go "not json")⟩) (go "B")
      (go "K")).unmarshalData (go "not json") = (none, some GoError.jsonSyntaxError) ∧
    ((gameServerService.mk (fun _ => Except.ok ⟨200, Except.ok (go "not json")⟩) (go "B")
      (go "K")).get (fun _ => none) (go "M") none).ret =
      (none, some GoError.jsonSyntaxError) ∧
    ((gameServerService.mk (fun _ => Except.ok ⟨200, Except.ok (go "not json")⟩) (go "B")
      (go "K")).post (fun _ => none) (go "M") none).ret =
      (none, some GoError.jsonSyntaxError) :=
  ⟨(invalid_json_decode_error (fun _ => none)
      (gameServerService.mk (fun _ => Except.ok ⟨200, Except.ok (go "not json")⟩) (go "B")
        (go "K")) (go "M") none 200 (go "not json") not_IsJSON_not_json).1,
    (invalid_json_decode_error (fun _ => none)
      (gameServerService.mk (fun _ => Except.ok ⟨200, Except.ok (go "not json")⟩) (go "B")
        (go "K")) (go "M") none 200 (go "not json") not_IsJSON_not_json).2.1 rfl rfl,
    (invalid_json_decode_error (fun _ => none)
      (gameServerService.mk (fun _ => Except.ok ⟨200, Except.ok (go "not json")⟩) (go "B")
        (go "K")) (go "M") none 200 (go "not json") not_IsJSON_not_json).2.2 rfl rfl⟩

/-- C8 (amended) at the body ` [1] `: an array, hence a type error. -/
theorem unmarshalData_error_by_kind_witness :
    IsWs (go " ") ∧ IsValueAt maxNestingDepth (go "[1]") ∧
    ∃ (c : Byte) (t : Bytes), go "[1]" = c :: t ∧
      ((gameServerService.mk (fun _ => Except.error (GoError.other 0)) (go "B")
        (go "K")).unmarshalData (go " " ++ (go "[1]" ++ go " "))).2 =
        if c.val = 0x7B ∨ c.val = 0x6E then none
        else if c.val = 0x5B then some (GoError.jsonUnmarshalTypeError (go "array"))
        else if c.val = 0x22 then some (GoError.jsonUnmarshalTypeError (go "string"))
        else if c.val = 0x74 ∨ c.val = 0x66 then
          some (GoError.jsonUnmarshalTypeError (go "bool"))
        else some (GoError.jsonUnmarshalTypeError (go "number")) :=
  ⟨IsWs_space, IsValueAt_of_scan _ _ (by decide),
    unmarshalData_error_by_kind
      (gameServerService.mk (fun _ => Except.error (GoError.other 0)) (go "B") (go "K"))
      (go " ") (go "[1]") (go " ") IsWs_space (IsValueAt_of_scan _ _ (by decide)) IsWs_space⟩

end Client

